import Mathlib

/-!
Verification of the expense-splitting core of `smart-split`
(`src/utils/algorithm.ts`, data model in `src/types.ts`).

Modelling conventions:
* JavaScript numbers are modelled as exact rationals (`ℚ`); the spec and the
  claims describe the algorithms' arithmetic content, not IEEE-754 drift.
* A JavaScript object used as a string-keyed map (`BalanceSheet`,
  `Record<string, number>`) is modelled as an association list in insertion
  order.  Property assignment `o[k] = v` updates the first entry with key `k`
  or appends a new entry, exactly as in `setKey` below; `o[k] || 0` reads the
  entry or defaults to `0` (`getD`), matching the JS expression because `0` is
  falsy and `undefined || 0` is `0`.
* `Math.round(x)` is `⌊x + 1/2⌋` (`jround`); the local helper
  `round(num) = Math.round(num * 100) / 100` is `roundQ`.
* A thrown `TypeError` (reading a property of `undefined`) is modelled with
  `Except Unit`.
-/

namespace SmartSplit

/-- `Member` from `types.ts`. -/
structure Member where
  id : String
  name : String
deriving DecidableEq, Repr

/-- `SplitDetail` from `types.ts`. -/
structure SplitDetail where
  memberId : String
  amount : ℚ
deriving DecidableEq, Repr

/-- `Expense` from `types.ts`. -/
structure Expense where
  id : String
  title : String
  date : String
  totalAmount : ℚ
  paidBy : List SplitDetail
  splitAmong : List SplitDetail
  timestamp : ℤ
deriving DecidableEq, Repr

/-- `Transaction` from `types.ts` (`explanation?` is optional). -/
structure Transaction where
  «from» : String
  «to» : String
  amount : ℚ
  explanation : Option String := none
deriving DecidableEq, Repr

/-- `BalanceSheet` from `types.ts`: a string-keyed object, modelled as an
association list in insertion order. -/
abbrev BalanceSheet := List (String × ℚ)

/-- Reading `b[k]` with the `|| 0` default used throughout `algorithm.ts`. -/
def getD : BalanceSheet → String → ℚ
  | [], _ => 0
  | (k', v) :: t, k => if k' = k then v else getD t k

/-- JS object assignment `b[k] = v`: overwrite the existing entry for `k`
(keeping its position) or append a fresh one. -/
def setKey : BalanceSheet → String → ℚ → BalanceSheet
  | [], k, v => [(k, v)]
  | (k', v') :: t, k, v => if k' = k then (k, v) :: t else (k', v') :: setKey t k v

/-- The keys of a balance sheet (JS `Object.keys`). -/
def keys (b : BalanceSheet) : List String := b.map Prod.fst

/-- The sum of all values of a balance sheet. -/
def sumVals (b : BalanceSheet) : ℚ := (b.map Prod.snd).sum

/-- `balances[payer.memberId] = (balances[payer.memberId] || 0) + payer.amount`
(`algorithm.ts` line 13). -/
def addShare (b : BalanceSheet) (s : SplitDetail) : BalanceSheet :=
  setKey b s.memberId (getD b s.memberId + s.amount)

/-- `balances[debtor.memberId] = (balances[debtor.memberId] || 0) - debtor.amount`
(`algorithm.ts` line 18). -/
def subShare (b : BalanceSheet) (s : SplitDetail) : BalanceSheet :=
  setKey b s.memberId (getD b s.memberId - s.amount)

/-- The body of the `expenses.forEach` in `calculateBalances`
(`algorithm.ts` lines 10–20): fold the payer shares, then the debtor shares. -/
def applyExpense (b : BalanceSheet) (expense : Expense) : BalanceSheet :=
  expense.splitAmong.foldl subShare (expense.paidBy.foldl addShare b)

/-- `members.forEach(m => balances[m.id] = 0)` (`algorithm.ts` line 8). -/
def initBalances (members : List Member) : BalanceSheet :=
  members.foldl (fun b m => setKey b m.id 0) []

/-- `calculateBalances` from `algorithm.ts` lines 4–23: zero-initialise every
member, then for each expense add each payer share and subtract each debtor
share. -/
def calculateBalances (expenses : List Expense) (members : List Member) : BalanceSheet :=
  expenses.foldl applyExpense (initBalances members)

/-- All participant ids mentioned by an expense's shares. -/
def shareIds (e : Expense) : List String :=
  e.paidBy.map SplitDetail.memberId ++ e.splitAmong.map SplitDetail.memberId

/-! ### Basic lemmas about `getD` / `setKey` -/

theorem mem_keys_setKey (b : BalanceSheet) (k x : String) (v : ℚ) :
    x ∈ keys (setKey b k v) ↔ x ∈ keys b ∨ x = k := by
  induction b with
  | nil => simp [setKey, keys]
  | cons hd t ih =>
    obtain ⟨k', v'⟩ := hd
    by_cases h : k' = k
    · subst h
      simp [setKey, keys]
      tauto
    · simp only [setKey, if_neg h, keys, List.map_cons, List.mem_cons]
      rw [keys] at ih
      rw [ih]
      tauto

theorem getD_eq_zero_of_not_mem (b : BalanceSheet) (k : String) (h : k ∉ keys b) :
    getD b k = 0 := by
  induction b with
  | nil => rfl
  | cons hd t ih =>
    obtain ⟨k', v'⟩ := hd
    simp only [keys, List.map_cons, List.mem_cons, not_or] at h
    rw [getD, if_neg (fun hk => h.1 hk.symm)]
    exact ih (by simpa [keys] using h.2)

theorem sumVals_setKey (b : BalanceSheet) (k : String) (v : ℚ) :
    sumVals (setKey b k v) = sumVals b + v - (if k ∈ keys b then getD b k else 0) := by
  induction b with
  | nil => simp [setKey, sumVals, keys]
  | cons hd t ih =>
    obtain ⟨k', v'⟩ := hd
    simp only [sumVals, keys] at ih ⊢
    by_cases h : k' = k
    · subst h
      simp [setKey, getD]
      ring
    · have hne : ¬(k = k') := fun hk => h hk.symm
      simp only [setKey, if_neg h, List.map_cons, List.sum_cons, List.mem_cons, hne, false_or,
        getD]
      rw [ih]
      by_cases hm : k ∈ List.map Prod.fst t
      · simp only [if_pos hm]; ring
      · simp only [if_neg hm]; ring

/-- Adding `a` at key `k` via the `(b[k] || 0) + a` idiom shifts the total by `a`. -/
theorem sumVals_upsert_add (b : BalanceSheet) (k : String) (a : ℚ) :
    sumVals (setKey b k (getD b k + a)) = sumVals b + a := by
  rw [sumVals_setKey]
  by_cases h : k ∈ keys b
  · simp only [if_pos h]; ring
  · simp only [if_neg h]
    rw [getD_eq_zero_of_not_mem b k h]
    ring

theorem sumVals_upsert_sub (b : BalanceSheet) (k : String) (a : ℚ) :
    sumVals (setKey b k (getD b k - a)) = sumVals b - a := by
  rw [sumVals_setKey]
  by_cases h : k ∈ keys b
  · simp only [if_pos h]; ring
  · simp only [if_neg h]
    rw [getD_eq_zero_of_not_mem b k h]
    ring

theorem mem_setKey (b : BalanceSheet) (k : String) (v : ℚ) :
    ∀ x ∈ setKey b k v, x ∈ b ∨ x = (k, v) := by
  induction b with
  | nil => simp [setKey]
  | cons hd t ih =>
    obtain ⟨k', v'⟩ := hd
    intro x hx
    by_cases h : k' = k
    · subst h
      rcases (by simpa [setKey] using hx : x = (k', v) ∨ x ∈ t) with h1 | h1
      · exact Or.inr h1
      · exact Or.inl (List.mem_cons_of_mem _ h1)
    · rcases (by simpa [setKey, if_neg h] using hx : x = (k', v') ∨ x ∈ setKey t k v) with h1 | h1
      · exact Or.inl (by simp [h1])
      · rcases ih x h1 with h2 | h2
        · exact Or.inl (List.mem_cons_of_mem _ h2)
        · exact Or.inr h2

/-! ### Key-set lemmas for the balance folds -/

theorem keys_mono_foldl {α : Type} {f : BalanceSheet → α → BalanceSheet}
    (hf : ∀ b x k, k ∈ keys b → k ∈ keys (f b x)) :
    ∀ (l : List α) (b : BalanceSheet) (k : String), k ∈ keys b → k ∈ keys (l.foldl f b) := by
  intro l
  induction l with
  | nil => intro b k hk; simpa using hk
  | cons hd t ih => intro b k hk; exact ih (f b hd) k (hf b hd k hk)

theorem keys_mono_addShare (b : BalanceSheet) (s : SplitDetail) (k : String)
    (hk : k ∈ keys b) : k ∈ keys (addShare b s) :=
  (mem_keys_setKey _ _ _ _).mpr (Or.inl hk)

theorem keys_mono_subShare (b : BalanceSheet) (s : SplitDetail) (k : String)
    (hk : k ∈ keys b) : k ∈ keys (subShare b s) :=
  (mem_keys_setKey _ _ _ _).mpr (Or.inl hk)

theorem keys_mono_applyExpense (b : BalanceSheet) (e : Expense) (k : String)
    (hk : k ∈ keys b) : k ∈ keys (applyExpense b e) :=
  keys_mono_foldl keys_mono_subShare _ _ _
    (keys_mono_foldl keys_mono_addShare _ _ _ hk)

theorem mem_keys_initBalances (members : List Member) (m : Member) (hm : m ∈ members) :
    m.id ∈ keys (initBalances members) := by
  rw [initBalances]
  have main : ∀ (l : List Member) (b : BalanceSheet) (m : Member), m ∈ l →
      m.id ∈ keys (l.foldl (fun b m => setKey b m.id 0) b) := by
    intro l
    induction l with
    | nil => intro b m hm; cases hm
    | cons hd t ih =>
      intro b m hm
      rcases List.mem_cons.mp hm with h | h
      · subst h
        exact keys_mono_foldl (fun b x k hk => (mem_keys_setKey _ _ _ _).mpr (Or.inl hk)) t _ _
          ((mem_keys_setKey _ _ _ _).mpr (Or.inr rfl))
      · exact ih _ m h
  exact main members [] m hm

theorem keys_foldl_addShare_subset (shares : List SplitDetail) :
    ∀ (b : BalanceSheet) (k : String), k ∈ keys (shares.foldl addShare b) →
      k ∈ keys b ∨ k ∈ shares.map SplitDetail.memberId := by
  induction shares with
  | nil => intro b k hk; exact Or.inl (by simpa using hk)
  | cons hd t ih =>
    intro b k hk
    rcases ih (addShare b hd) k hk with h | h
    · rcases (mem_keys_setKey _ _ _ _).mp h with h1 | h1
      · exact Or.inl h1
      · exact Or.inr (by simp [h1])
    · exact Or.inr (by simp [h])

theorem keys_foldl_subShare_subset (shares : List SplitDetail) :
    ∀ (b : BalanceSheet) (k : String), k ∈ keys (shares.foldl subShare b) →
      k ∈ keys b ∨ k ∈ shares.map SplitDetail.memberId := by
  induction shares with
  | nil => intro b k hk; exact Or.inl (by simpa using hk)
  | cons hd t ih =>
    intro b k hk
    rcases ih (subShare b hd) k hk with h | h
    · rcases (mem_keys_setKey _ _ _ _).mp h with h1 | h1
      · exact Or.inl h1
      · exact Or.inr (by simp [h1])
    · exact Or.inr (by simp [h])

theorem keys_applyExpense_subset (b : BalanceSheet) (e : Expense) (k : String)
    (hk : k ∈ keys (applyExpense b e)) : k ∈ keys b ∨ k ∈ shareIds e := by
  rcases keys_foldl_subShare_subset _ _ _ hk with h | h
  · rcases keys_foldl_addShare_subset _ _ _ h with h1 | h1
    · exact Or.inl h1
    · exact Or.inr (by simp [shareIds, h1])
  · exact Or.inr (by simp [shareIds, h])

theorem keys_initBalances_subset (members : List Member) :
    ∀ k ∈ keys (initBalances members), k ∈ members.map Member.id := by
  rw [initBalances]
  have main : ∀ (l : List Member) (b : BalanceSheet) (k : String),
      k ∈ keys (l.foldl (fun b m => setKey b m.id 0) b) →
        k ∈ keys b ∨ k ∈ l.map Member.id := by
    intro l
    induction l with
    | nil => intro b k hk; exact Or.inl (by simpa using hk)
    | cons hd t ih =>
      intro b k hk
      rcases ih _ k hk with h | h
      · rcases (mem_keys_setKey _ _ _ _).mp h with h1 | h1
        · exact Or.inl h1
        · exact Or.inr (by simp [h1])
      · exact Or.inr (by simp [h])
  intro k hk
  rcases main members [] k hk with h | h
  · simp [keys] at h
  · exact h

theorem keys_expfold_subset (expenses : List Expense) :
    ∀ (b : BalanceSheet) (k : String), k ∈ keys (expenses.foldl applyExpense b) →
      k ∈ keys b ∨ ∃ e ∈ expenses, k ∈ shareIds e := by
  induction expenses with
  | nil => intro b k hk; exact Or.inl (by simpa using hk)
  | cons hd t ih =>
    intro b k hk
    rcases ih _ k hk with h | h
    · rcases keys_applyExpense_subset _ _ _ h with h1 | h1
      · exact Or.inl h1
      · exact Or.inr ⟨hd, by simp, h1⟩
    · obtain ⟨e, he, hke⟩ := h
      exact Or.inr ⟨e, by simp [he], hke⟩

/-! ### Value-sum lemmas for the balance folds -/

theorem sumVals_foldl_addShare (shares : List SplitDetail) :
    ∀ b : BalanceSheet, sumVals (shares.foldl addShare b) =
      sumVals b + (shares.map SplitDetail.amount).sum := by
  induction shares with
  | nil => intro b; simp
  | cons hd t ih =>
    intro b
    rw [List.foldl_cons, ih, addShare, sumVals_upsert_add]
    simp
    ring

theorem sumVals_foldl_subShare (shares : List SplitDetail) :
    ∀ b : BalanceSheet, sumVals (shares.foldl subShare b) =
      sumVals b - (shares.map SplitDetail.amount).sum := by
  induction shares with
  | nil => intro b; simp
  | cons hd t ih =>
    intro b
    rw [List.foldl_cons, ih, subShare, sumVals_upsert_sub]
    simp
    ring

theorem sumVals_applyExpense (b : BalanceSheet) (e : Expense) :
    sumVals (applyExpense b e) =
      sumVals b + (e.paidBy.map SplitDetail.amount).sum
        - (e.splitAmong.map SplitDetail.amount).sum := by
  rw [applyExpense, sumVals_foldl_subShare, sumVals_foldl_addShare]

theorem sumVals_initBalances (members : List Member) : sumVals (initBalances members) = 0 := by
  rw [initBalances]
  have main : ∀ (l : List Member) (b : BalanceSheet), (∀ x ∈ b, x.2 = 0) →
      sumVals (l.foldl (fun b m => setKey b m.id 0) b) = 0 := by
    intro l
    induction l with
    | nil =>
      intro b hb
      simp only [List.foldl_nil, sumVals]
      refine List.sum_eq_zero ?_
      intro x hx
      obtain ⟨p, hp, rfl⟩ := List.mem_map.mp hx
      exact hb p hp
    | cons hd t ih =>
      intro b hb
      refine ih _ ?_
      intro x hx
      rcases mem_setKey b hd.id 0 x hx with h | h
      · exact hb x h
      · simp [h]
  exact main members [] (by simp)

/-- **C5.** For every member list and every expense list in which each
expense's payer share amounts sum to the same value as its debtor share
amounts, the values of the balance sheet returned by `calculateBalances` sum
to exactly `0`. -/
theorem c5_zero_sum (expenses : List Expense) (members : List Member)
    (h : ∀ e ∈ expenses,
      (e.paidBy.map SplitDetail.amount).sum = (e.splitAmong.map SplitDetail.amount).sum) :
    sumVals (calculateBalances expenses members) = 0 := by
  rw [calculateBalances]
  have main : ∀ (l : List Expense) (b : BalanceSheet),
      (∀ e ∈ l, (e.paidBy.map SplitDetail.amount).sum = (e.splitAmong.map SplitDetail.amount).sum) →
      sumVals (l.foldl applyExpense b) = sumVals b := by
    intro l
    induction l with
    | nil => intro b _; rfl
    | cons hd t ih =>
      intro b hl
      rw [List.foldl_cons, ih _ (fun e he => hl e (List.mem_cons_of_mem _ he)),
        sumVals_applyExpense, hl hd (List.mem_cons_self _ _)]
      ring
  rw [main expenses _ h, sumVals_initBalances]

/-- Witness for C5: the spec's example scenario (`A` pays 90, split 30/30/30
among `A`, `B`, `C`). -/
theorem c5_witness :
    sumVals (calculateBalances
      [⟨"e1", "dinner", "2024-01-01", 90, [⟨"a", 90⟩], [⟨"a", 30⟩, ⟨"b", 30⟩, ⟨"c", 30⟩], 0⟩]
      [⟨"a", "A"⟩, ⟨"b", "B"⟩, ⟨"c", "C"⟩]) = 0 :=
  c5_zero_sum _ _ (by intro e he; simp at he; subst he; norm_num)

/-- **C1 (amended).** `calculateBalances` returns a sheet whose keys include
every member id, and whose keys all come either from the member list or from
some share of some expense.  Shares of participants absent from the member
list are *not* ignored: they create entries (see `c1_counterexample`). -/
theorem c1_balances_keys (expenses : List Expense) (members : List Member) :
    (∀ m ∈ members, m.id ∈ keys (calculateBalances expenses members)) ∧
    ∀ k ∈ keys (calculateBalances expenses members),
      k ∈ members.map Member.id ∨ ∃ e ∈ expenses, k ∈ shareIds e := by
  constructor
  · intro m hm
    rw [calculateBalances]
    exact keys_mono_foldl keys_mono_applyExpense _ _ _ (mem_keys_initBalances members m hm)
  · intro k hk
    rw [calculateBalances] at hk
    rcases keys_expfold_subset _ _ _ hk with h | h
    · exact Or.inl (keys_initBalances_subset members k h)
    · exact Or.inr h

/-- Witness for the amended C1: the sole member's id is a key of the result
even with no expenses. -/
theorem c1_witness : "m1" ∈ keys (calculateBalances [] [⟨"m1", "M"⟩]) := by
  have h := (c1_balances_keys [] [⟨"m1", "M"⟩]).1 ⟨"m1", "M"⟩ (by simp)
  exact h

/-- **C1 is false as stated**: with an empty member list, an expense paid by
the unknown participant `"x"` produces a balance-sheet entry `("x", 5)` —
the contribution is accumulated, not silently ignored. -/
theorem c1_counterexample :
    ("x", (5 : ℚ)) ∈ calculateBalances [⟨"e1", "t", "d", 5, [⟨"x", 5⟩], [], 0⟩] [] ∧
    "x" ∉ ([] : List Member).map Member.id := by
  refine ⟨?_, by simp⟩
  norm_num [calculateBalances, applyExpense, addShare, initBalances, setKey, getD]

/-! ## The settlement minimizer (`calculateMinimalTransactions`, lines 26–75) -/

/-- JS `Math.round`: round half toward positive infinity. -/
def jround (q : ℚ) : ℤ := ⌊q + 1/2⌋

/-- The local helper `round = (num) => Math.round(num * 100) / 100`
(`algorithm.ts` line 31). -/
def roundQ (q : ℚ) : ℚ := (jround (q * 100) : ℚ) / 100

/-- The debtor list built by the `Object.entries(balances).forEach` at lines
33–37: entries whose rounded value is `< -0.01`, in entry order.  (The two
`if` conditions are mutually exclusive, so the single pass pushing into two
arrays is a map followed by two filters.) -/
def debtorsOf (balances : BalanceSheet) : List (String × ℚ) :=
  (balances.map (fun p => (p.1, roundQ p.2))).filter (fun p => decide (p.2 < -(1/100)))

/-- The creditor list built at lines 33–37: entries whose rounded value is
`> 0.01`, in entry order. -/
def creditorsOf (balances : BalanceSheet) : List (String × ℚ) :=
  (balances.map (fun p => (p.1, roundQ p.2))).filter (fun p => decide (1/100 < p.2))

/-- The `while (i < debtors.length && j < creditors.length)` loop of lines
47–72.  The two mutating arrays with advancing pointers are modelled by lists
that lose their head when the corresponding pointer advances and have the
head's `amount` field updated otherwise.  `fuel` bounds the number of
iterations; `calculateMinimalTransactions` passes `debtors.length +
creditors.length`, which is proved sufficient (`settleLoop_fuel_stable`)
because every iteration on reachable states advances at least one pointer. -/
def settleLoop : ℕ → List (String × ℚ) → List (String × ℚ) → List Transaction
  | 0, _, _ => []
  | _ + 1, [], _ => []
  | _ + 1, _, [] => []
  | fuel + 1, d :: ds, c :: cs =>
    let amount := roundQ (min |d.2| c.2)
    let roundedAmount := jround amount
    let txs : List Transaction :=
      if 0 < roundedAmount then [⟨d.1, c.1, (roundedAmount : ℚ), none⟩] else []
    let dv := roundQ (d.2 + amount)
    let cv := roundQ (c.2 - amount)
    txs ++ settleLoop fuel (if |dv| < 1/100 then ds else (d.1, dv) :: ds)
      (if cv < 1/100 then cs else (c.1, cv) :: cs)

/-- `calculateMinimalTransactions` from `algorithm.ts` lines 26–75.  The two
`Array#sort` calls (stable, comparator `a.amount - b.amount` resp.
`b.amount - a.amount`) are stable merge sorts ascending resp. descending by
amount. -/
def calculateMinimalTransactions (balances : BalanceSheet) : List Transaction :=
  let debtors := (debtorsOf balances).mergeSort (fun a b => a.2 ≤ b.2)
  let creditors := (creditorsOf balances).mergeSort (fun a b => b.2 ≤ a.2)
  settleLoop (debtors.length + creditors.length) debtors creditors

/-- Net effect of a transaction list on participant `p` when each transaction
is applied in the settling direction: `from` pays, so `from`'s net balance
rises by `amount`, and `to` is owed less, so `to`'s balance falls by
`amount`. -/
def netEffectSettle (txs : List Transaction) (p : String) : ℚ :=
  (txs.map (fun tx =>
    (if tx.«from» = p then tx.amount else 0) - (if tx.«to» = p then tx.amount else 0))).sum

/-- Net effect of a transaction list on participant `p` when applied in the
direction the claim C4 states: add `amount` to `to`, subtract it from
`from`. -/
def netEffectClaimed (txs : List Transaction) (p : String) : ℚ :=
  (txs.map (fun tx =>
    (if tx.«to» = p then tx.amount else 0) - (if tx.«from» = p then tx.amount else 0))).sum

/-- Total amount held by key `p` in a working list (sums duplicates). -/
def amtIn (l : List (String × ℚ)) (p : String) : ℚ :=
  ((l.filter (fun x => decide (x.1 = p))).map Prod.snd).sum

/-- A rational that is a whole number of cents (the loop state is always of
this form: every stored amount passed through `roundQ`). -/
def CentVal (q : ℚ) : Prop := ∃ n : ℤ, q = (n : ℚ) / 100

/-- A rational that is a whole number of currency units. -/
def IntVal (q : ℚ) : Prop := ∃ n : ℤ, q = (n : ℚ)

/-! ### Rounding lemmas -/

theorem jround_intCast (n : ℤ) : jround (n : ℚ) = n := by
  rw [jround, Int.floor_int_add]
  norm_num

theorem roundQ_centVal (q : ℚ) : CentVal (roundQ q) := ⟨jround (q * 100), rfl⟩

theorem roundQ_eq_self {q : ℚ} (h : CentVal q) : roundQ q = q := by
  obtain ⟨n, rfl⟩ := h
  rw [roundQ]
  have h1 : (n : ℚ) / 100 * 100 = (n : ℚ) := by field_simp
  rw [h1, jround_intCast]

theorem intVal_centVal {q : ℚ} (h : IntVal q) : CentVal q := by
  obtain ⟨n, rfl⟩ := h
  exact ⟨100 * n, by push_cast; ring⟩

theorem centVal_add {a b : ℚ} (ha : CentVal a) (hb : CentVal b) : CentVal (a + b) := by
  obtain ⟨n, rfl⟩ := ha
  obtain ⟨m, rfl⟩ := hb
  exact ⟨n + m, by push_cast; ring⟩

theorem centVal_sub {a b : ℚ} (ha : CentVal a) (hb : CentVal b) : CentVal (a - b) := by
  obtain ⟨n, rfl⟩ := ha
  obtain ⟨m, rfl⟩ := hb
  exact ⟨n - m, by push_cast; ring⟩

theorem centVal_neg {a : ℚ} (ha : CentVal a) : CentVal (-a) := by
  obtain ⟨n, rfl⟩ := ha
  exact ⟨-n, by push_cast; ring⟩

theorem centVal_min {a b : ℚ} (ha : CentVal a) (hb : CentVal b) : CentVal (min a b) := by
  rcases le_total a b with h | h
  · rwa [min_eq_left h]
  · rwa [min_eq_right h]

theorem centVal_abs {a : ℚ} (ha : CentVal a) : CentVal |a| := by
  rcases le_total 0 a with h | h
  · rwa [abs_of_nonneg h]
  · rw [abs_of_nonpos h]; exact centVal_neg ha

/-- A nonnegative whole number of cents below one cent is zero. -/
theorem centVal_lt_hundredth {q : ℚ} (hq : CentVal q) (h0 : 0 ≤ q) :
    q < 1/100 ↔ q = 0 := by
  obtain ⟨n, rfl⟩ := hq
  constructor
  · intro h
    have hn1 : (n : ℚ) < 1 := by linarith
    have hn0 : (0 : ℚ) ≤ (n : ℚ) := by
      by_contra hcon
      push_neg at hcon
      have : (n : ℚ) / 100 < 0 := div_neg_of_neg_of_pos hcon (by norm_num)
      linarith
    have h1 : n < 1 := by exact_mod_cast hn1
    have h2 : 0 ≤ n := by exact_mod_cast hn0
    have : n = 0 := by omega
    simp [this]
  · intro h
    rw [h]
    norm_num

/-! ### Loop invariants and the shape of one iteration -/

/-- Invariant of the debtor list inside the matching loop: every stored
amount is a whole number of cents and at most `-0.01`. -/
def DebtorInv (l : List (String × ℚ)) : Prop := ∀ x ∈ l, CentVal x.2 ∧ x.2 ≤ -(1/100)

/-- Invariant of the creditor list inside the matching loop. -/
def CreditorInv (l : List (String × ℚ)) : Prop := ∀ x ∈ l, CentVal x.2 ∧ 1/100 ≤ x.2

theorem settleLoop_nil_left (f : ℕ) (cs : List (String × ℚ)) : settleLoop f [] cs = [] := by
  cases f
  · rfl
  · cases cs <;> rfl

theorem settleLoop_nil_right (f : ℕ) (ds : List (String × ℚ)) : settleLoop f ds [] = [] := by
  cases f
  · rfl
  · cases ds <;> rfl

theorem settleLoop_cons (fuel : ℕ) (d c : String × ℚ) (ds cs : List (String × ℚ)) :
    settleLoop (fuel+1) (d :: ds) (c :: cs) =
      (if 0 < jround (roundQ (min |d.2| c.2)) then
        [⟨d.1, c.1, (jround (roundQ (min |d.2| c.2)) : ℚ), none⟩] else []) ++
      settleLoop fuel
        (if |roundQ (d.2 + roundQ (min |d.2| c.2))| < 1/100 then ds
         else (d.1, roundQ (d.2 + roundQ (min |d.2| c.2))) :: ds)
        (if roundQ (c.2 - roundQ (min |d.2| c.2)) < 1/100 then cs
         else (c.1, roundQ (c.2 - roundQ (min |d.2| c.2))) :: cs) := rfl

/-- Everything one iteration of the matching loop does on a reachable state:
with `a = min(-dq, cq)` the settled amount is exactly `a`, the updated
amounts are exactly `dq + a` and `cq - a`, they stay whole cents with the
right signs, at least one of them is `0`, and the two advance conditions of
lines 70–71 are equivalent to the respective amount being `0`. -/
theorem settle_step {dq cq : ℚ} (hdc : CentVal dq) (hdl : dq ≤ -(1/100))
    (hcc : CentVal cq) (hcl : 1/100 ≤ cq) :
    roundQ (min |dq| cq) = min (-dq) cq ∧
    roundQ (dq + min (-dq) cq) = dq + min (-dq) cq ∧
    roundQ (cq - min (-dq) cq) = cq - min (-dq) cq ∧
    CentVal (dq + min (-dq) cq) ∧ CentVal (cq - min (-dq) cq) ∧
    dq + min (-dq) cq ≤ 0 ∧ 0 ≤ cq - min (-dq) cq ∧
    (dq + min (-dq) cq = 0 ∨ cq - min (-dq) cq = 0) ∧
    1/100 ≤ min (-dq) cq ∧
    (|dq + min (-dq) cq| < 1/100 ↔ dq + min (-dq) cq = 0) ∧
    ((cq - min (-dq) cq) < 1/100 ↔ cq - min (-dq) cq = 0) := by
  have habs : |dq| = -dq := abs_of_nonpos (by linarith)
  have hac : CentVal (min (-dq) cq) := centVal_min (centVal_neg hdc) hcc
  have hdvc : CentVal (dq + min (-dq) cq) := centVal_add hdc hac
  have hcvc : CentVal (cq - min (-dq) cq) := centVal_sub hcc hac
  have hdv0 : dq + min (-dq) cq ≤ 0 := by
    have := min_le_left (-dq) cq
    linarith
  have hcv0 : 0 ≤ cq - min (-dq) cq := by
    have := min_le_right (-dq) cq
    linarith
  have hzero : dq + min (-dq) cq = 0 ∨ cq - min (-dq) cq = 0 := by
    rcases min_cases (-dq) cq with ⟨h, _⟩ | ⟨h, _⟩
    · left; rw [h]; ring
    · right; rw [h]; ring
  have hiffd : |dq + min (-dq) cq| < 1/100 ↔ dq + min (-dq) cq = 0 := by
    rw [abs_of_nonpos hdv0]
    rw [centVal_lt_hundredth (centVal_neg hdvc) (by linarith)]
    constructor
    · intro h; linarith
    · intro h; rw [h]; ring
  have hiffc : (cq - min (-dq) cq) < 1/100 ↔ cq - min (-dq) cq = 0 :=
    centVal_lt_hundredth hcvc hcv0
  refine ⟨?_, roundQ_eq_self hdvc, roundQ_eq_self hcvc, hdvc, hcvc, hdv0, hcv0, hzero, ?_,
    hiffd, hiffc⟩
  · rw [habs, roundQ_eq_self hac]
  · exact le_min (by linarith) hcl

/-- The two updated working lists of one iteration keep the loop invariants,
and at least one pointer advances. -/
theorem settle_branches {d c : String × ℚ} {ds cs : List (String × ℚ)}
    (hd : DebtorInv (d :: ds)) (hc : CreditorInv (c :: cs)) :
    DebtorInv (if |d.2 + min (-d.2) c.2| < 1/100 then ds
      else (d.1, d.2 + min (-d.2) c.2) :: ds) ∧
    CreditorInv (if (c.2 - min (-d.2) c.2) < 1/100 then cs
      else (c.1, c.2 - min (-d.2) c.2) :: cs) ∧
    (if |d.2 + min (-d.2) c.2| < 1/100 then ds
      else (d.1, d.2 + min (-d.2) c.2) :: ds).length +
    (if (c.2 - min (-d.2) c.2) < 1/100 then cs
      else (c.1, c.2 - min (-d.2) c.2) :: cs).length ≤ ds.length + cs.length + 1 := by
  obtain ⟨hdc, hdl⟩ := hd d (List.mem_cons_self _ _)
  obtain ⟨hcc, hcl⟩ := hc c (List.mem_cons_self _ _)
  obtain ⟨hmin, hrd, hrc, hdvc, hcvc, hdv0, hcv0, hzero, hamt, hiffd, hiffc⟩ :=
    settle_step hdc hdl hcc hcl
  have hdtail : DebtorInv ds := fun x hx => hd x (List.mem_cons_of_mem _ hx)
  have hctail : CreditorInv cs := fun x hx => hc x (List.mem_cons_of_mem _ hx)
  refine ⟨?_, ?_, ?_⟩
  · by_cases h : |d.2 + min (-d.2) c.2| < 1/100
    · rw [if_pos h]; exact hdtail
    · rw [if_neg h]
      intro x hx
      rcases List.mem_cons.mp hx with rfl | hx
      · refine ⟨hdvc, ?_⟩
        rw [abs_of_nonpos hdv0] at h
        push_neg at h
        simpa using by linarith
      · exact hdtail x hx
  · by_cases h : (c.2 - min (-d.2) c.2) < 1/100
    · rw [if_pos h]; exact hctail
    · rw [if_neg h]
      intro x hx
      rcases List.mem_cons.mp hx with rfl | hx
      · exact ⟨hcvc, by push_neg at h; simpa using h⟩
      · exact hctail x hx
  · rcases hzero with h0 | h0
    · rw [if_pos (hiffd.mpr h0)]
      by_cases h : (c.2 - min (-d.2) c.2) < 1/100
      · rw [if_pos h]; omega
      · rw [if_neg h]; simp only [List.length_cons]; omega
    · rw [if_pos (hiffc.mpr h0)]
      by_cases h : |d.2 + min (-d.2) c.2| < 1/100
      · rw [if_pos h]; omega
      · rw [if_neg h]; simp only [List.length_cons]; omega

/-- With at least `ds.length + cs.length` fuel the loop has stabilised:
adding fuel does not change the result.  This is the termination argument
for the `while` loop: each iteration removes at least one element. -/
theorem settleLoop_succ :
    ∀ (fuel : ℕ) (ds cs : List (String × ℚ)), DebtorInv ds → CreditorInv cs →
      ds.length + cs.length ≤ fuel →
      settleLoop (fuel + 1) ds cs = settleLoop fuel ds cs := by
  intro fuel
  induction fuel with
  | zero =>
    intro ds cs _ _ hlen
    have hds : ds = [] := by
      cases ds with
      | nil => rfl
      | cons a l => simp at hlen
    subst hds
    rw [settleLoop_nil_left]
    rfl
  | succ f ih =>
    intro ds cs hd hc hlen
    cases ds with
    | nil => rw [settleLoop_nil_left, settleLoop_nil_left]
    | cons d ds =>
      cases cs with
      | nil => rw [settleLoop_nil_right, settleLoop_nil_right]
      | cons c cs =>
        obtain ⟨hdc, hdl⟩ := hd d (List.mem_cons_self _ _)
        obtain ⟨hcc, hcl⟩ := hc c (List.mem_cons_self _ _)
        obtain ⟨hmin, hrd, hrc, _, _, _, _, _, _, _, _⟩ := settle_step hdc hdl hcc hcl
        rw [settleLoop_cons, settleLoop_cons, hmin, hrd, hrc]
        obtain ⟨hd', hc', hlen'⟩ := settle_branches hd hc
        congr 1
        refine ih _ _ hd' hc' ?_
        simp only [List.length_cons] at hlen
        omega

/-- The loop result is unchanged by any extra fuel beyond
`ds.length + cs.length`. -/
theorem settleLoop_fuel_stable (ds cs : List (String × ℚ)) (hd : DebtorInv ds)
    (hc : CreditorInv cs) (k : ℕ) :
    settleLoop (ds.length + cs.length + k) ds cs =
      settleLoop (ds.length + cs.length) ds cs := by
  induction k with
  | zero => rfl
  | succ n ih => rw [← ih, ← Nat.add_assoc]; exact settleLoop_succ _ _ _ hd hc (by omega)

/-- Every emitted transaction's `from` is a key of the debtor working list
and its `to` a key of the creditor working list. -/
theorem settleLoop_mem :
    ∀ (fuel : ℕ) (ds cs : List (String × ℚ)) (tx : Transaction),
      tx ∈ settleLoop fuel ds cs →
      tx.«from» ∈ ds.map Prod.fst ∧ tx.«to» ∈ cs.map Prod.fst := by
  intro fuel
  induction fuel with
  | zero => intro ds cs tx htx; simp [settleLoop] at htx
  | succ f ih =>
    intro ds cs tx htx
    cases ds with
    | nil => rw [settleLoop_nil_left] at htx; cases htx
    | cons d ds =>
      cases cs with
      | nil => rw [settleLoop_nil_right] at htx; cases htx
      | cons c cs =>
        rw [settleLoop_cons] at htx
        rcases List.mem_append.mp htx with h | h
        · by_cases hpos : 0 < jround (roundQ (min |d.2| c.2))
          · rw [if_pos hpos] at h
            simp only [List.mem_singleton] at h
            subst h
            constructor <;> simp
          · rw [if_neg hpos] at h
            cases h
        · obtain ⟨h1, h2⟩ := ih _ _ tx h
          constructor
          · by_cases hb : |roundQ (d.2 + roundQ (min |d.2| c.2))| < 1/100
            · rw [if_pos hb] at h1
              exact List.mem_cons_of_mem _ h1
            · rw [if_neg hb] at h1
              simpa using (by simpa using h1 : tx.«from» = d.1 ∨ tx.«from» ∈ ds.map Prod.fst)
          · by_cases hb : (roundQ (c.2 - roundQ (min |d.2| c.2))) < 1/100
            · rw [if_pos hb] at h2
              exact List.mem_cons_of_mem _ h2
            · rw [if_neg hb] at h2
              simpa using (by simpa using h2 : tx.«to» = c.1 ∨ tx.«to» ∈ cs.map Prod.fst)

/-- Transaction-count bound: at most one transaction per iteration, and the
loop runs out of elements after `ds.length + cs.length - 1` iterations with
both lists nonempty. -/
theorem settleLoop_length :
    ∀ (fuel : ℕ) (ds cs : List (String × ℚ)), DebtorInv ds → CreditorInv cs →
      (settleLoop fuel ds cs).length ≤ ds.length + cs.length - 1 := by
  intro fuel
  induction fuel with
  | zero => intro ds cs _ _; simp [settleLoop]
  | succ f ih =>
    intro ds cs hd hc
    cases ds with
    | nil => rw [settleLoop_nil_left]; simp
    | cons d ds =>
      cases cs with
      | nil => rw [settleLoop_nil_right]; simp
      | cons c cs =>
        obtain ⟨hdc, hdl⟩ := hd d (List.mem_cons_self _ _)
        obtain ⟨hcc, hcl⟩ := hc c (List.mem_cons_self _ _)
        obtain ⟨hmin, hrd, hrc, _, _, _, _, _, _, _, _⟩ := settle_step hdc hdl hcc hcl
        rw [settleLoop_cons, hmin, hrd, hrc]
        obtain ⟨hd', hc', hlen'⟩ := settle_branches hd hc
        have hrec := ih _ _ hd' hc'
        rw [List.length_append]
        have htx : (if 0 < jround (min (-d.2) c.2) then
            [(⟨d.1, c.1, ((jround (min (-d.2) c.2) : ℤ) : ℚ), none⟩ : Transaction)]
            else []).length ≤ 1 := by
          by_cases h : 0 < jround (min (-d.2) c.2) <;> simp [h]
        simp only [List.length_cons]
        omega

/-! ### Invariants of the freshly built debtor/creditor lists -/

theorem debtorsOf_inv (b : BalanceSheet) : DebtorInv (debtorsOf b) := by
  intro x hx
  obtain ⟨hmem, hcond⟩ := List.mem_filter.mp hx
  obtain ⟨p, _, rfl⟩ := List.mem_map.mp hmem
  refine ⟨roundQ_centVal _, ?_⟩
  have := of_decide_eq_true hcond
  simpa using le_of_lt this

theorem creditorsOf_inv (b : BalanceSheet) : CreditorInv (creditorsOf b) := by
  intro x hx
  obtain ⟨hmem, hcond⟩ := List.mem_filter.mp hx
  obtain ⟨p, _, rfl⟩ := List.mem_map.mp hmem
  refine ⟨roundQ_centVal _, ?_⟩
  have := of_decide_eq_true hcond
  simpa using le_of_lt this

theorem debtors_sorted_inv (b : BalanceSheet) :
    DebtorInv ((debtorsOf b).mergeSort (fun a b => a.2 ≤ b.2)) := fun x hx =>
  debtorsOf_inv b x ((List.mergeSort_perm (debtorsOf b) _).mem_iff.mp hx)

theorem creditors_sorted_inv (b : BalanceSheet) :
    CreditorInv ((creditorsOf b).mergeSort (fun a b => b.2 ≤ a.2)) := fun x hx =>
  creditorsOf_inv b x ((List.mergeSort_perm (creditorsOf b) _).mem_iff.mp hx)

/-- **C2 (amended).** If every balance, rounded to 2 decimals, lies in the
tolerance band `[-0.01, 0.01]`, then `calculateMinimalTransactions` returns
the empty list.  (The converse direction of the claim is false: see
`c2_counterexample`.) -/
theorem c2_tolerance_empty (b : BalanceSheet) (h : ∀ x ∈ b, |roundQ x.2| ≤ 1/100) :
    calculateMinimalTransactions b = [] := by
  have hdeb : debtorsOf b = [] := by
    rw [debtorsOf, List.filter_eq_nil_iff]
    intro a ha
    obtain ⟨p, hp, rfl⟩ := List.mem_map.mp ha
    have := h p hp
    simp only [decide_eq_true_eq]
    intro hlt
    have habs := neg_le_of_abs_le this
    simp at hlt
    linarith
  have hcred : creditorsOf b = [] := by
    rw [creditorsOf, List.filter_eq_nil_iff]
    intro a ha
    obtain ⟨p, hp, rfl⟩ := List.mem_map.mp ha
    have := h p hp
    simp only [decide_eq_true_eq]
    intro hlt
    have habs := le_of_abs_le this
    linarith
  rw [calculateMinimalTransactions]
  simp only [hdeb, hcred, List.mergeSort_nil]
  exact settleLoop_nil_left _ _

/-- **C2 is false as stated**: the sheet `{a: 1}` has a balance far outside
the tolerance band, yet `calculateMinimalTransactions` returns the empty
list (there is no debtor to match the creditor against). -/
theorem c2_counterexample :
    calculateMinimalTransactions [("a", (1 : ℚ))] = [] ∧ 1/100 < |roundQ (1 : ℚ)| := by
  constructor
  · norm_num [calculateMinimalTransactions, debtorsOf, creditorsOf, roundQ, jround, settleLoop]
  · rw [show roundQ (1 : ℚ) = 1 by norm_num [roundQ, jround]]
    norm_num

/-- Witness for `c2_tolerance_empty` at the sheet `{a: 0.004, b: -0.01}`:
both round into the tolerance band. -/
theorem c2_witness :
    calculateMinimalTransactions [("a", (4/1000 : ℚ)), ("b", (-(1/100) : ℚ))] = [] :=
  c2_tolerance_empty _ (by
    intro x hx
    rcases (by simpa using hx :
        x = ("a", (4/1000 : ℚ)) ∨ x = ("b", (-(1/100) : ℚ))) with rfl | rfl
    · norm_num [roundQ, jround, abs_le]
    · norm_num [roundQ, jround, abs_le])

/-- Look up the (unique, by `Nodup`) entry of `k`. -/
theorem getD_of_mem_nodup {b : BalanceSheet} {k : String} {v : ℚ}
    (hmem : (k, v) ∈ b) (h : (b.map Prod.fst).Nodup) : getD b k = v := by
  induction b with
  | nil => cases hmem
  | cons hd t ih =>
    obtain ⟨k', v'⟩ := hd
    rcases List.mem_cons.mp hmem with heq | hmem'
    · obtain ⟨rfl, rfl⟩ := Prod.mk.injEq .. ▸ heq
      · simp [getD]
    · have hk : k ∈ t.map Prod.fst := List.mem_map.mpr ⟨(k, v), hmem', rfl⟩
      have hne : k' ≠ k := by
        rintro rfl
        exact (List.nodup_cons.mp (by simpa using h)).1 hk
      rw [getD, if_neg hne]
      exact ih hmem' (List.nodup_cons.mp (by simpa using h)).2

/-- **C6.** Every transaction of `calculateMinimalTransactions` goes from a
participant whose rounded input balance was `< -0.01` to one whose rounded
input balance was `> 0.01`; in particular no transaction pays oneself. -/
theorem c6_directional (b : BalanceSheet) (h : (b.map Prod.fst).Nodup) :
    ∀ tx ∈ calculateMinimalTransactions b,
      roundQ (getD b tx.«from») < -(1/100) ∧ 1/100 < roundQ (getD b tx.«to») ∧
      tx.«from» ≠ tx.«to» := by
  intro tx htx
  rw [calculateMinimalTransactions] at htx
  obtain ⟨hfrom, hto⟩ := settleLoop_mem _ _ _ tx htx
  have hfrom' : tx.«from» ∈ (debtorsOf b).map Prod.fst :=
    (((List.mergeSort_perm (debtorsOf b) _).map Prod.fst).mem_iff).mp hfrom
  have hto' : tx.«to» ∈ (creditorsOf b).map Prod.fst :=
    (((List.mergeSort_perm (creditorsOf b) _).map Prod.fst).mem_iff).mp hto
  obtain ⟨x, hxmem, hx1⟩ := List.mem_map.mp hfrom'
  obtain ⟨hxb, hxcond⟩ := List.mem_filter.mp hxmem
  obtain ⟨p, hpb, rfl⟩ := List.mem_map.mp hxb
  obtain ⟨y, hymem, hy1⟩ := List.mem_map.mp hto'
  obtain ⟨hyb, hycond⟩ := List.mem_filter.mp hymem
  obtain ⟨q, hqb, rfl⟩ := List.mem_map.mp hyb
  have hpd : roundQ p.2 < -(1/100) := by simpa using of_decide_eq_true hxcond
  have hqc : 1/100 < roundQ q.2 := by simpa using of_decide_eq_true hycond
  have hgp : getD b tx.«from» = p.2 := by
    rw [← hx1]
    exact getD_of_mem_nodup (by simpa using hpb) h
  have hgq : getD b tx.«to» = q.2 := by
    rw [← hy1]
    exact getD_of_mem_nodup (by simpa using hqb) h
  refine ⟨by rw [hgp]; exact hpd, by rw [hgq]; exact hqc, ?_⟩
  intro hft
  rw [hft, hgq] at hgp
  rw [← hgp] at hpd
  linarith

/-- Witness for C6 at the sheet `{a: -2, b: 2}`, whose settlement is the
single transaction `a → b` of amount 2. -/
theorem c6_witness :
    roundQ (getD [("a", (-2 : ℚ)), ("b", 2)] "a") < -(1/100) ∧
    1/100 < roundQ (getD [("a", (-2 : ℚ)), ("b", 2)] "b") ∧ ("a" : String) ≠ "b" := by
  have hcomp : calculateMinimalTransactions [("a", (-2 : ℚ)), ("b", 2)] =
      [⟨"a", "b", 2, none⟩] := by
    norm_num [calculateMinimalTransactions, debtorsOf, creditorsOf, roundQ, jround, settleLoop]
  have hmem : (⟨"a", "b", 2, none⟩ : Transaction) ∈
      calculateMinimalTransactions [("a", (-2 : ℚ)), ("b", 2)] := by
    rw [hcomp]
    simp
  have h := c6_directional [("a", (-2 : ℚ)), ("b", 2)] (by simp) _ hmem
  exact h

/-! ### C7: termination and transaction-count bound -/

/-- The number of sheet entries whose rounded balance lies outside the
tolerance band `[-0.01, 0.01]` (with distinct keys, the number of such
participants). -/
def outsideCount (b : BalanceSheet) : ℕ :=
  (b.filter (fun p => decide (roundQ p.2 < -(1/100) ∨ 1/100 < roundQ p.2))).length

theorem length_filter_or_disjoint {α : Type} (p q : α → Bool) :
    ∀ l : List α, (∀ x ∈ l, ¬(p x = true ∧ q x = true)) →
      (l.filter (fun x => p x || q x)).length = (l.filter p).length + (l.filter q).length := by
  intro l
  induction l with
  | nil => intro _; simp
  | cons hd t ih =>
    intro h
    have ht := ih (fun x hx => h x (List.mem_cons_of_mem _ hx))
    by_cases hp : p hd = true
    · have hq : q hd = false := by
        rcases Bool.eq_false_or_eq_true (q hd) with h1 | h1
        · exact absurd ⟨hp, h1⟩ (h hd (List.mem_cons_self _ _))
        · exact h1
      simp [List.filter_cons, hp, hq, ht]
      omega
    · have hp' : p hd = false := Bool.eq_false_iff.mpr hp
      by_cases hq : q hd = true
      · simp [List.filter_cons, hp', hq, ht]
        omega
      · have hq' : q hd = false := Bool.eq_false_iff.mpr hq
        simp [List.filter_cons, hp', hq', ht]

theorem debtors_creditors_length (b : BalanceSheet) :
    (debtorsOf b).length + (creditorsOf b).length = outsideCount b := by
  rw [debtorsOf, creditorsOf, outsideCount, List.filter_map, List.filter_map,
    List.length_map, List.length_map]
  rw [show (fun p : String × ℚ => decide (roundQ p.2 < -(1/100) ∨ 1/100 < roundQ p.2)) =
      (fun p : String × ℚ =>
        ((fun x : String × ℚ => decide (x.2 < -(1/100))) ∘ fun p => (p.1, roundQ p.2)) p ||
        ((fun x : String × ℚ => decide (1/100 < x.2)) ∘ fun p => (p.1, roundQ p.2)) p) from ?_]
  · rw [length_filter_or_disjoint]
    intro x _
    rintro ⟨h1, h2⟩
    simp only [Function.comp_apply, decide_eq_true_eq] at h1 h2
    linarith
  · funext x
    by_cases h1 : roundQ x.2 < -(1/100) <;> by_cases h2 : 1/100 < roundQ x.2 <;>
      simp [h1, h2, Function.comp]

/-- **C7.** The matching loop terminates within `debtors.length +
creditors.length` iterations (extra fuel never changes the result), and the
number of returned transactions is `0` when no participant is outside the
tolerance band and at most `outsideCount - 1` when at least one is. -/
theorem c7_termination_and_bound (b : BalanceSheet) (hnd : (b.map Prod.fst).Nodup) :
    (∀ k : ℕ,
      settleLoop (((debtorsOf b).mergeSort (fun a b => a.2 ≤ b.2)).length +
          ((creditorsOf b).mergeSort (fun a b => b.2 ≤ a.2)).length + k)
        ((debtorsOf b).mergeSort (fun a b => a.2 ≤ b.2))
        ((creditorsOf b).mergeSort (fun a b => b.2 ≤ a.2)) =
        calculateMinimalTransactions b) ∧
    (outsideCount b = 0 → calculateMinimalTransactions b = []) ∧
    (0 < outsideCount b →
      (calculateMinimalTransactions b).length ≤ outsideCount b - 1) := by
  have hD := debtors_sorted_inv b
  have hC := creditors_sorted_inv b
  refine ⟨?_, ?_, ?_⟩
  · intro k
    rw [calculateMinimalTransactions]
    exact settleLoop_fuel_stable _ _ hD hC k
  · intro h0
    have hlen : (debtorsOf b).length + (creditorsOf b).length = 0 := by
      rw [debtors_creditors_length]; exact h0
    have hdeb : debtorsOf b = [] := List.length_eq_zero.mp (by omega)
    rw [calculateMinimalTransactions, hdeb, List.mergeSort_nil]
    exact settleLoop_nil_left _ _
  · intro _
    have hbound := settleLoop_length
      (((debtorsOf b).mergeSort (fun a b => a.2 ≤ b.2)).length +
        ((creditorsOf b).mergeSort (fun a b => b.2 ≤ a.2)).length) _ _ hD hC
    rw [calculateMinimalTransactions]
    have hld : ((debtorsOf b).mergeSort (fun a b => a.2 ≤ b.2)).length =
        (debtorsOf b).length := (List.mergeSort_perm _ _).length_eq
    have hlc : ((creditorsOf b).mergeSort (fun a b => b.2 ≤ a.2)).length =
        (creditorsOf b).length := (List.mergeSort_perm _ _).length_eq
    calc _ ≤ _ := hbound
    _ ≤ outsideCount b - 1 := by
        rw [hld, hlc, debtors_creditors_length]

/-- Witness for C7 at the sheet `{a: -2, b: 2}` (two participants outside
tolerance): one extra unit of fuel leaves the result unchanged, and the
transaction count is bounded by `2 - 1`. -/
theorem c7_witness :
    settleLoop (((debtorsOf [("a", (-2:ℚ)), ("b", 2)]).mergeSort (fun a b => a.2 ≤ b.2)).length +
        ((creditorsOf [("a", (-2:ℚ)), ("b", 2)]).mergeSort (fun a b => b.2 ≤ a.2)).length + 1)
      ((debtorsOf [("a", (-2:ℚ)), ("b", 2)]).mergeSort (fun a b => a.2 ≤ b.2))
      ((creditorsOf [("a", (-2:ℚ)), ("b", 2)]).mergeSort (fun a b => b.2 ≤ a.2)) =
      calculateMinimalTransactions [("a", (-2:ℚ)), ("b", 2)] ∧
    (calculateMinimalTransactions [("a", (-2:ℚ)), ("b", 2)]).length ≤
      outsideCount [("a", (-2:ℚ)), ("b", 2)] - 1 := by
  obtain ⟨h1, _, h3⟩ := c7_termination_and_bound [("a", (-2:ℚ)), ("b", 2)] (by simp)
  refine ⟨h1 1, h3 ?_⟩
  norm_num [outsideCount, roundQ, jround]

/-! ### C4: applying the transactions settles an integral zero-sum sheet -/

/-- Debtor-list invariant in the whole-currency-unit case. -/
def DebtorZ (l : List (String × ℚ)) : Prop := ∀ x ∈ l, IntVal x.2 ∧ x.2 ≤ -1

/-- Creditor-list invariant in the whole-currency-unit case. -/
def CreditorZ (l : List (String × ℚ)) : Prop := ∀ x ∈ l, IntVal x.2 ∧ 1 ≤ x.2

theorem debtorZ_inv {l : List (String × ℚ)} (h : DebtorZ l) : DebtorInv l := by
  intro x hx
  obtain ⟨hI, hL⟩ := h x hx
  exact ⟨intVal_centVal hI, by linarith⟩

theorem creditorZ_inv {l : List (String × ℚ)} (h : CreditorZ l) : CreditorInv l := by
  intro x hx
  obtain ⟨hI, hL⟩ := h x hx
  exact ⟨intVal_centVal hI, by linarith⟩

theorem amtIn_cons (x : String × ℚ) (t : List (String × ℚ)) (p : String) :
    amtIn (x :: t) p = (if x.1 = p then x.2 else 0) + amtIn t p := by
  by_cases h : x.1 = p <;> simp [amtIn, List.filter_cons, h]

theorem amtIn_append (l1 l2 : List (String × ℚ)) (p : String) :
    amtIn (l1 ++ l2) p = amtIn l1 p + amtIn l2 p := by
  simp [amtIn, List.filter_append]

theorem amtIn_eq_zero_of_forall {l : List (String × ℚ)} {p : String}
    (h : ∀ y ∈ l, y.1 ≠ p) : amtIn l p = 0 := by
  have : l.filter (fun x => decide (x.1 = p)) = [] := by
    rw [List.filter_eq_nil_iff]
    intro a ha
    simp [h a ha]
  simp [amtIn, this]

theorem amtIn_perm {l1 l2 : List (String × ℚ)} (h : l1.Perm l2) (p : String) :
    amtIn l1 p = amtIn l2 p :=
  ((h.filter _).map Prod.snd).sum_eq

theorem sumVals_perm {l1 l2 : List (String × ℚ)} (h : l1.Perm l2) :
    sumVals l1 = sumVals l2 := (h.map Prod.snd).sum_eq

theorem netEffectSettle_cons (tx : Transaction) (txs : List Transaction) (p : String) :
    netEffectSettle (tx :: txs) p =
      ((if tx.«from» = p then tx.amount else 0) - (if tx.«to» = p then tx.amount else 0)) +
        netEffectSettle txs p := by
  simp [netEffectSettle]

theorem netEffectSettle_append (l1 l2 : List Transaction) (p : String) :
    netEffectSettle (l1 ++ l2) p = netEffectSettle l1 p + netEffectSettle l2 p := by
  simp [netEffectSettle]

theorem sumVals_nonneg_of {l : List (String × ℚ)} (h : ∀ x ∈ l, 0 ≤ x.2) :
    0 ≤ sumVals l := by
  induction l with
  | nil => simp [sumVals]
  | cons hd t ih =>
    have h1 := h hd (List.mem_cons_self _ _)
    have h2 := ih (fun x hx => h x (List.mem_cons_of_mem _ hx))
    simp only [sumVals, List.map_cons, List.sum_cons] at h2 ⊢
    linarith

theorem sumVals_nonpos_of {l : List (String × ℚ)} (h : ∀ x ∈ l, x.2 ≤ 0) :
    sumVals l ≤ 0 := by
  induction l with
  | nil => simp [sumVals]
  | cons hd t ih =>
    have h1 := h hd (List.mem_cons_self _ _)
    have h2 := ih (fun x hx => h x (List.mem_cons_of_mem _ hx))
    simp only [sumVals, List.map_cons, List.sum_cons] at h2 ⊢
    linarith

theorem eq_nil_of_sumVals_zero_pos {l : List (String × ℚ)} (h1 : ∀ x ∈ l, 1 ≤ x.2)
    (h : sumVals l = 0) : l = [] := by
  cases l with
  | nil => rfl
  | cons hd t =>
    exfalso
    have hnn : 0 ≤ sumVals t :=
      sumVals_nonneg_of (fun x hx => by linarith [h1 x (List.mem_cons_of_mem _ hx)])
    have hhd := h1 hd (List.mem_cons_self _ _)
    simp only [sumVals, List.map_cons, List.sum_cons] at h
    simp only [sumVals] at hnn
    linarith

theorem eq_nil_of_sumVals_zero_neg {l : List (String × ℚ)} (h1 : ∀ x ∈ l, x.2 ≤ -1)
    (h : sumVals l = 0) : l = [] := by
  cases l with
  | nil => rfl
  | cons hd t =>
    exfalso
    have hnp : sumVals t ≤ 0 :=
      sumVals_nonpos_of (fun x hx => by linarith [h1 x (List.mem_cons_of_mem _ hx)])
    have hhd := h1 hd (List.mem_cons_self _ _)
    simp only [sumVals, List.map_cons, List.sum_cons] at h
    simp only [sumVals] at hnp
    linarith

/-- Integer refinement of `settle_step`: the settled amount is the integer
`min(-dq, cq) ≥ 1`, `Math.round` is the identity on it, and the updated
amounts are integers. -/
theorem settle_step_int {dq cq : ℚ} (hdq : IntVal dq) (hdl : dq ≤ -1)
    (hcq : IntVal cq) (hcl : 1 ≤ cq) :
    ∃ n : ℤ, (n : ℚ) = min (-dq) cq ∧ jround (min (-dq) cq) = n ∧ 1 ≤ n ∧
      IntVal (dq + min (-dq) cq) ∧ IntVal (cq - min (-dq) cq) := by
  obtain ⟨a, rfl⟩ := hdq
  obtain ⟨b, rfl⟩ := hcq
  refine ⟨min (-a) b, ?_, ?_, ?_, ?_, ?_⟩
  · push_cast [Int.cast_min]
    rfl
  · rw [show min (-(a:ℚ)) (b:ℚ) = ((min (-a) b : ℤ) : ℚ) by push_cast [Int.cast_min]; rfl]
    exact jround_intCast _
  · have ha : 1 ≤ -a := by
      have : (a : ℚ) ≤ -1 := hdl
      have : a ≤ -1 := by exact_mod_cast this
      omega
    have hb : 1 ≤ b := by exact_mod_cast hcl
    exact le_min ha hb
  · exact ⟨a + min (-a) b, by push_cast [Int.cast_min]; ring⟩
  · exact ⟨b - min (-a) b, by push_cast [Int.cast_min]; ring⟩

/-- Core correctness of the matching loop on an integral, zero-sum state:
the net effect (in the settling direction) of all emitted transactions on
any participant `p` is exactly the negation of the amount `p` holds in the
working lists. -/
theorem settle_exact :
    ∀ (fuel : ℕ) (ds cs : List (String × ℚ)), DebtorZ ds → CreditorZ cs →
      sumVals ds + sumVals cs = 0 → ds.length + cs.length ≤ fuel →
      ∀ p, netEffectSettle (settleLoop fuel ds cs) p = -(amtIn ds p + amtIn cs p) := by
  intro fuel
  induction fuel with
  | zero =>
    intro ds cs _ _ _ hlen p
    have hds : ds = [] := by
      cases ds with
      | nil => rfl
      | cons a l => simp at hlen
    have hcs : cs = [] := by
      cases cs with
      | nil => rfl
      | cons a l => rw [hds] at hlen; simp at hlen
    subst hds; subst hcs
    simp [settleLoop, netEffectSettle, amtIn]
  | succ f ih =>
    intro ds cs hd hc hsum hlen p
    cases ds with
    | nil =>
      have hcs : cs = [] := by
        refine eq_nil_of_sumVals_zero_pos (fun x hx => (hc x hx).2) ?_
        simpa [sumVals] using hsum
      subst hcs
      simp [settleLoop_nil_left, netEffectSettle, amtIn]
    | cons d dt =>
      cases cs with
      | nil =>
        exfalso
        have : d :: dt = [] := by
          refine eq_nil_of_sumVals_zero_neg (fun x hx => (hd x hx).2) ?_
          simpa [sumVals] using hsum
        simp at this
      | cons c ct =>
        obtain ⟨hdI, hdL⟩ := hd d (List.mem_cons_self _ _)
        obtain ⟨hcI, hcL⟩ := hc c (List.mem_cons_self _ _)
        have hdc := intVal_centVal hdI
        have hcc := intVal_centVal hcI
        have hdl' : d.2 ≤ -(1/100) := by linarith
        have hcl' : 1/100 ≤ c.2 := by linarith
        obtain ⟨hmin, hrd, hrc, hdvc, hcvc, hdv0, hcv0, hzero, hamt, hiffd, hiffc⟩ :=
          settle_step hdc hdl' hcc hcl'
        obtain ⟨n, hncast, hjr, hn1, hdvI, hcvI⟩ := settle_step_int hdI hdL hcI hcL
        rw [settleLoop_cons, hmin, hrd, hrc, hjr, if_pos (show (0:ℤ) < n by omega),
          netEffectSettle_append, netEffectSettle_cons]
        -- facts about the two updated lists, uniform in the branch taken
        have hds' : amtIn (if |d.2 + min (-d.2) c.2| < 1/100 then dt
            else (d.1, d.2 + min (-d.2) c.2) :: dt) p =
            (if d.1 = p then d.2 + min (-d.2) c.2 else 0) + amtIn dt p := by
          by_cases hb : |d.2 + min (-d.2) c.2| < 1/100
          · rw [if_pos hb, hiffd.mp hb]
            simp
          · rw [if_neg hb, amtIn_cons]
        have hcs' : amtIn (if (c.2 - min (-d.2) c.2) < 1/100 then ct
            else (c.1, c.2 - min (-d.2) c.2) :: ct) p =
            (if c.1 = p then c.2 - min (-d.2) c.2 else 0) + amtIn ct p := by
          by_cases hb : (c.2 - min (-d.2) c.2) < 1/100
          · rw [if_pos hb, hiffc.mp hb]
            simp
          · rw [if_neg hb, amtIn_cons]
        have hsd : sumVals (if |d.2 + min (-d.2) c.2| < 1/100 then dt
            else (d.1, d.2 + min (-d.2) c.2) :: dt) =
            (d.2 + min (-d.2) c.2) + sumVals dt := by
          by_cases hb : |d.2 + min (-d.2) c.2| < 1/100
          · rw [if_pos hb, hiffd.mp hb]
            ring
          · rw [if_neg hb]
            simp [sumVals]
        have hsc : sumVals (if (c.2 - min (-d.2) c.2) < 1/100 then ct
            else (c.1, c.2 - min (-d.2) c.2) :: ct) =
            (c.2 - min (-d.2) c.2) + sumVals ct := by
          by_cases hb : (c.2 - min (-d.2) c.2) < 1/100
          · rw [if_pos hb, hiffc.mp hb]
            ring
          · rw [if_neg hb]
            simp [sumVals]
        have hdZ' : DebtorZ (if |d.2 + min (-d.2) c.2| < 1/100 then dt
            else (d.1, d.2 + min (-d.2) c.2) :: dt) := by
          by_cases hb : |d.2 + min (-d.2) c.2| < 1/100
          · rw [if_pos hb]
            exact fun x hx => hd x (List.mem_cons_of_mem _ hx)
          · rw [if_neg hb]
            intro x hx
            rcases List.mem_cons.mp hx with rfl | hx
            · refine ⟨hdvI, ?_⟩
              show d.2 + min (-d.2) c.2 ≤ -1
              obtain ⟨m, hm⟩ := hdvI
              rw [hm]
              rw [hm] at hdv0 hb
              have hm0 : (m : ℚ) ≤ 0 := hdv0
              have hm0' : m ≤ 0 := by exact_mod_cast hm0
              have hmne : m ≠ 0 := by
                rintro rfl
                simp at hb
              have : m ≤ -1 := by omega
              exact_mod_cast this
            · exact hd x (List.mem_cons_of_mem _ hx)
        have hcZ' : CreditorZ (if (c.2 - min (-d.2) c.2) < 1/100 then ct
            else (c.1, c.2 - min (-d.2) c.2) :: ct) := by
          by_cases hb : (c.2 - min (-d.2) c.2) < 1/100
          · rw [if_pos hb]
            exact fun x hx => hc x (List.mem_cons_of_mem _ hx)
          · rw [if_neg hb]
            intro x hx
            rcases List.mem_cons.mp hx with rfl | hx
            · refine ⟨hcvI, ?_⟩
              show (1:ℚ) ≤ c.2 - min (-d.2) c.2
              obtain ⟨m, hm⟩ := hcvI
              rw [hm]
              rw [hm] at hcv0 hb
              have hm0 : (0 : ℚ) ≤ (m : ℚ) := hcv0
              have hm0' : 0 ≤ m := by exact_mod_cast hm0
              have hmne : m ≠ 0 := by
                rintro rfl
                simp at hb
              have : 1 ≤ m := by omega
              exact_mod_cast this
            · exact hc x (List.mem_cons_of_mem _ hx)
        have hlen' : (if |d.2 + min (-d.2) c.2| < 1/100 then dt
            else (d.1, d.2 + min (-d.2) c.2) :: dt).length +
            (if (c.2 - min (-d.2) c.2) < 1/100 then ct
            else (c.1, c.2 - min (-d.2) c.2) :: ct).length ≤ f := by
          obtain ⟨_, _, hlb⟩ := settle_branches (debtorZ_inv hd) (creditorZ_inv hc)
          simp only [List.length_cons] at hlen
          omega
        have hsum' : sumVals (if |d.2 + min (-d.2) c.2| < 1/100 then dt
            else (d.1, d.2 + min (-d.2) c.2) :: dt) +
            sumVals (if (c.2 - min (-d.2) c.2) < 1/100 then ct
            else (c.1, c.2 - min (-d.2) c.2) :: ct) = 0 := by
          rw [hsd, hsc]
          simp only [sumVals, List.map_cons, List.sum_cons] at hsum
          simp only [sumVals]
          linarith
        rw [ih _ _ hdZ' hcZ' hsum' hlen' p, hds', hcs', amtIn_cons d dt p, amtIn_cons c ct p]
        rw [netEffectSettle, List.map_nil, List.sum_nil, hncast]
        by_cases hp1 : d.1 = p <;> by_cases hp2 : c.1 = p <;> simp [hp1, hp2] <;> ring


theorem debtorsOf_cons (x : String × ℚ) (t : BalanceSheet) :
    debtorsOf (x :: t) =
      (if roundQ x.2 < -(1/100) then [(x.1, roundQ x.2)] else []) ++ debtorsOf t := by
  rw [debtorsOf, List.map_cons, List.filter_cons]
  by_cases h : roundQ x.2 < -(1/100)
  · rw [if_pos (show decide ((x.1, roundQ x.2).2 < -(1/100)) = true from by simpa using h),
      if_pos h]
    rfl
  · rw [if_neg (show ¬decide ((x.1, roundQ x.2).2 < -(1/100)) = true from by simpa using h),
      if_neg h]
    rfl

theorem creditorsOf_cons (x : String × ℚ) (t : BalanceSheet) :
    creditorsOf (x :: t) =
      (if 1/100 < roundQ x.2 then [(x.1, roundQ x.2)] else []) ++ creditorsOf t := by
  rw [creditorsOf, List.map_cons, List.filter_cons]
  by_cases h : 1/100 < roundQ x.2
  · rw [if_pos (show decide (1/100 < (x.1, roundQ x.2).2) = true from by simpa using h),
      if_pos h]
    rfl
  · rw [if_neg (show ¬decide (1/100 < (x.1, roundQ x.2).2) = true from by simpa using h),
      if_neg h]
    rfl

/-- A whole-unit balance inside the tolerance band is exactly zero. -/
theorem intVal_in_band {q : ℚ} (h : IntVal q) (h1 : ¬(q < -(1/100))) (h2 : ¬(1/100 < q)) :
    q = 0 := by
  obtain ⟨k, rfl⟩ := h
  push_neg at h1 h2
  have hk1 : (-1 : ℚ) < k := by linarith
  have hk2 : (k : ℚ) < 1 := by linarith
  have h1' : (-1 : ℤ) < k := by exact_mod_cast hk1
  have h2' : k < 1 := by exact_mod_cast hk2
  have : k = 0 := by omega
  simp [this]

theorem sum_split :
    ∀ b : BalanceSheet, (∀ x ∈ b, IntVal x.2) →
      sumVals (debtorsOf b) + sumVals (creditorsOf b) = sumVals b := by
  intro b
  induction b with
  | nil => intro _; simp [debtorsOf, creditorsOf, sumVals]
  | cons x t ih =>
    intro h
    have hx := h x (List.mem_cons_self _ _)
    have hr : roundQ x.2 = x.2 := roundQ_eq_self (intVal_centVal hx)
    have ht := ih (fun y hy => h y (List.mem_cons_of_mem _ hy))
    simp only [sumVals] at ht
    rw [debtorsOf_cons, creditorsOf_cons]
    by_cases h1 : roundQ x.2 < -(1/100)
    · have h2 : ¬(1/100 < roundQ x.2) := by rw [hr] at h1 ⊢; linarith
      rw [if_pos h1, if_neg h2]
      simp only [sumVals, List.map_append, List.sum_append, List.map_cons, List.sum_cons,
        List.map_nil, List.sum_nil, List.nil_append]
      rw [hr]
      linarith
    · by_cases h2 : 1/100 < roundQ x.2
      · rw [if_neg h1, if_pos h2]
        simp only [sumVals, List.map_append, List.sum_append, List.map_cons, List.sum_cons,
          List.map_nil, List.sum_nil, List.nil_append]
        rw [hr]
        linarith
      · have hx0 : x.2 = 0 := intVal_in_band hx (hr ▸ h1) (hr ▸ h2)
        rw [if_neg h1, if_neg h2]
        simp only [sumVals, List.map_append, List.sum_append, List.map_cons, List.sum_cons,
          List.map_nil, List.sum_nil, List.nil_append]
        rw [hx0]
        linarith

theorem keys_debtorsOf (b : BalanceSheet) : ∀ y ∈ debtorsOf b, y.1 ∈ b.map Prod.fst := by
  intro y hy
  obtain ⟨hmem, _⟩ := List.mem_filter.mp hy
  obtain ⟨p, hp, rfl⟩ := List.mem_map.mp hmem
  exact List.mem_map.mpr ⟨p, hp, rfl⟩

theorem keys_creditorsOf (b : BalanceSheet) : ∀ y ∈ creditorsOf b, y.1 ∈ b.map Prod.fst := by
  intro y hy
  obtain ⟨hmem, _⟩ := List.mem_filter.mp hy
  obtain ⟨p, hp, rfl⟩ := List.mem_map.mp hmem
  exact List.mem_map.mpr ⟨p, hp, rfl⟩

theorem amt_split :
    ∀ b : BalanceSheet, (b.map Prod.fst).Nodup → (∀ x ∈ b, IntVal x.2) →
      ∀ x ∈ b, amtIn (debtorsOf b) x.1 + amtIn (creditorsOf b) x.1 = x.2 := by
  intro b
  induction b with
  | nil => intro _ _ x hx; cases hx
  | cons hd t ih =>
    intro hnd h x hx
    rw [List.map_cons, List.nodup_cons] at hnd
    have hhdI := h hd (List.mem_cons_self _ _)
    have hr : roundQ hd.2 = hd.2 := roundQ_eq_self (intVal_centVal hhdI)
    rw [debtorsOf_cons, creditorsOf_cons, amtIn_append, amtIn_append]
    rcases List.mem_cons.mp hx with rfl | hx'
    · have hzD : amtIn (debtorsOf t) x.1 = 0 :=
        amtIn_eq_zero_of_forall (fun y hy he => hnd.1 (he ▸ keys_debtorsOf t y hy))
      have hzC : amtIn (creditorsOf t) x.1 = 0 :=
        amtIn_eq_zero_of_forall (fun y hy he => hnd.1 (he ▸ keys_creditorsOf t y hy))
      rw [hzD, hzC]
      by_cases h1 : roundQ x.2 < -(1/100)
      · have h2 : ¬(1/100 < roundQ x.2) := by rw [hr] at h1 ⊢; linarith
        rw [if_pos h1, if_neg h2, amtIn_cons]
        simp [amtIn, hr]
      · by_cases h2 : 1/100 < roundQ x.2
        · rw [if_neg h1, if_pos h2, amtIn_cons]
          simp [amtIn, hr]
        · have hx0 : x.2 = 0 := intVal_in_band hhdI (hr ▸ h1) (hr ▸ h2)
          rw [if_neg h1, if_neg h2]
          simp [amtIn, hx0]
    · have hne : hd.1 ≠ x.1 := fun he =>
        hnd.1 (he ▸ List.mem_map.mpr ⟨x, hx', rfl⟩)
      have hD : amtIn (if roundQ hd.2 < -(1/100) then [(hd.1, roundQ hd.2)] else []) x.1 = 0 := by
        by_cases h1 : roundQ hd.2 < -(1/100)
        · rw [if_pos h1, amtIn_cons]
          simp [hne, amtIn]
        · rw [if_neg h1]
          simp [amtIn]
      have hC : amtIn (if 1/100 < roundQ hd.2 then [(hd.1, roundQ hd.2)] else []) x.1 = 0 := by
        by_cases h1 : 1/100 < roundQ hd.2
        · rw [if_pos h1, amtIn_cons]
          simp [hne, amtIn]
        · rw [if_neg h1]
          simp [amtIn]
      rw [hD, hC]
      have := ih hnd.2 (fun y hy => h y (List.mem_cons_of_mem _ hy)) x hx'
      linarith

theorem debtorsOf_Z (b : BalanceSheet) (hint : ∀ x ∈ b, IntVal x.2) :
    DebtorZ (debtorsOf b) := by
  intro y hy
  obtain ⟨hmem, hcond⟩ := List.mem_filter.mp hy
  obtain ⟨p, hp, rfl⟩ := List.mem_map.mp hmem
  have hI := hint p hp
  have hr : roundQ p.2 = p.2 := roundQ_eq_self (intVal_centVal hI)
  have hlt : roundQ p.2 < -(1/100) := by simpa using of_decide_eq_true hcond
  refine ⟨by simpa [hr] using hI, ?_⟩
  show roundQ p.2 ≤ -1
  obtain ⟨k, hk⟩ := hI
  rw [hr, hk] at hlt ⊢
  have hk0 : (k : ℚ) < 0 := by linarith
  have : k < 0 := by exact_mod_cast hk0
  have : k ≤ -1 := by omega
  exact_mod_cast this

theorem creditorsOf_Z (b : BalanceSheet) (hint : ∀ x ∈ b, IntVal x.2) :
    CreditorZ (creditorsOf b) := by
  intro y hy
  obtain ⟨hmem, hcond⟩ := List.mem_filter.mp hy
  obtain ⟨p, hp, rfl⟩ := List.mem_map.mp hmem
  have hI := hint p hp
  have hr : roundQ p.2 = p.2 := roundQ_eq_self (intVal_centVal hI)
  have hlt : 1/100 < roundQ p.2 := by simpa using of_decide_eq_true hcond
  refine ⟨by simpa [hr] using hI, ?_⟩
  show (1:ℚ) ≤ roundQ p.2
  obtain ⟨k, hk⟩ := hI
  rw [hr, hk] at hlt ⊢
  have hk0 : (0 : ℚ) < (k : ℚ) := by linarith
  have : 0 < k := by exact_mod_cast hk0
  have : 1 ≤ k := by omega
  exact_mod_cast this

/-- **C4 (amended).** For a balance sheet with distinct keys whose balances
are whole currency units summing to zero, applying every transaction of
`calculateMinimalTransactions` in the settling direction (add the amount to
the `from` participant's balance, subtract it from the `to` participant's)
drives every balance exactly to zero — in particular within 1 unit of
zero. -/
theorem c4_settlement_exact (b : BalanceSheet) (hnd : (b.map Prod.fst).Nodup)
    (hint : ∀ x ∈ b, IntVal x.2) (hsum : sumVals b = 0) :
    ∀ x ∈ b, x.2 + netEffectSettle (calculateMinimalTransactions b) x.1 = 0 := by
  intro x hx
  have hpermD := List.mergeSort_perm (debtorsOf b) (fun a b => a.2 ≤ b.2)
  have hpermC := List.mergeSort_perm (creditorsOf b) (fun a b => b.2 ≤ a.2)
  have hDZ : DebtorZ ((debtorsOf b).mergeSort (fun a b => a.2 ≤ b.2)) :=
    fun y hy => debtorsOf_Z b hint y (hpermD.mem_iff.mp hy)
  have hCZ : CreditorZ ((creditorsOf b).mergeSort (fun a b => b.2 ≤ a.2)) :=
    fun y hy => creditorsOf_Z b hint y (hpermC.mem_iff.mp hy)
  have hsum' : sumVals ((debtorsOf b).mergeSort (fun a b => a.2 ≤ b.2)) +
      sumVals ((creditorsOf b).mergeSort (fun a b => b.2 ≤ a.2)) = 0 := by
    rw [sumVals_perm hpermD, sumVals_perm hpermC, sum_split b hint, hsum]
  have h := settle_exact _ _ _ hDZ hCZ hsum' (le_refl _) x.1
  rw [calculateMinimalTransactions, h, amtIn_perm hpermD, amtIn_perm hpermC]
  have := amt_split b hnd hint x hx
  linarith

/-- Witness for the amended C4 at the sheet `{a: -2, b: 2}`: after the single
transaction `a → b` of amount 2, participant `a`'s balance is exactly 0. -/
theorem c4_witness :
    (-2 : ℚ) + netEffectSettle (calculateMinimalTransactions [("a", (-2:ℚ)), ("b", 2)]) "a"
      = 0 := by
  have h := c4_settlement_exact [("a", (-2:ℚ)), ("b", 2)] (by simp)
    (by
      intro x hx
      rcases (by simpa using hx : x = ("a", (-2:ℚ)) ∨ x = ("b", (2:ℚ))) with rfl | rfl
      · exact ⟨-2, by norm_num⟩
      · exact ⟨2, by norm_num⟩)
    (by norm_num [sumVals])
    ("a", (-2:ℚ)) (by simp)
  simpa using h

/-- **C4 is false as stated**: on the sheet `{A: 2, B: -2}` the minimizer
emits the single transaction `B → A` of amount 2, and applying it in the
direction the claim states (add to `to`, subtract from `from`) moves `A`'s
balance to 4 — more than one currency unit away from zero. -/
theorem c4_counterexample :
    calculateMinimalTransactions [("A", (2 : ℚ)), ("B", -2)] = [⟨"B", "A", 2, none⟩] ∧
    (2 : ℚ) + netEffectClaimed [⟨"B", "A", 2, none⟩] "A" = 4 ∧
    (1 : ℚ) < |(2 : ℚ) + netEffectClaimed [⟨"B", "A", 2, none⟩] "A"| := by
  have hval : netEffectClaimed [⟨"B", "A", 2, none⟩] "A" = 2 := by
    simp [netEffectClaimed]
  refine ⟨?_, by rw [hval]; norm_num, by rw [hval]; norm_num⟩
  norm_num [calculateMinimalTransactions, debtorsOf, creditorsOf, roundQ, jround, settleLoop]

/-! ## The debt-matrix builder (`getDetailedRawDebts`, lines 79–140)

The JS `debtMatrix` is a `Record<string, Record<string, number>>` with one
row per member id, every member×member cell initialised to `0`.  The model
uses a total function `String → String → ℚ` (all cells default `0`)
together with the explicit row-key list for the crash check:

* reading `debtMatrix[splitter.memberId]` when the splitter id has no row
  throws a `TypeError` — modelled as `Except.error ()`;
* writing to a missing *column* of an existing row stores
  `undefined + chunk = NaN` in JS; such cells sit at non-member columns,
  are never read again (the consolidation pass visits member×member cells
  only), and the theorems about cell values are stated for member columns
  only, so the model may accumulate them like ordinary cells.
-/

/-- The debt matrix: dense, zero-defaulted. -/
def DebtMatrix : Type := String → String → ℚ

/-- Assignment `debtMatrix[x][y] = v`. -/
def updateCell (M : DebtMatrix) (x y : String) (v : ℚ) : DebtMatrix :=
  fun x' y' => if x' = x ∧ y' = y then v else M x' y'

/-- `exp.paidBy.reduce((sum, p) => sum + p.amount, 0)` (line 98). -/
def totalPaid (e : Expense) : ℚ := (e.paidBy.map SplitDetail.amount).sum

/-- The inner `exp.paidBy.forEach(payer => ...)` (lines 103–112) for a fixed
splitter.  When the splitter is not the payer, the row
`debtMatrix[splitter.memberId]` is read: a missing row throws. -/
def processPayers (rowKeys : List String) (tp : ℚ) (splitter : SplitDetail) :
    List SplitDetail → DebtMatrix → Except Unit DebtMatrix
  | [], M => .ok M
  | payer :: rest, M =>
    if splitter.memberId ≠ payer.memberId then
      if splitter.memberId ∈ rowKeys then
        processPayers rowKeys tp splitter rest
          (updateCell M splitter.memberId payer.memberId
            (M splitter.memberId payer.memberId + splitter.amount * (payer.amount / tp)))
      else .error ()
    else processPayers rowKeys tp splitter rest M

/-- The outer `exp.splitAmong.forEach(splitter => ...)` (lines 102–113). -/
def processSplitters (rowKeys : List String) (tp : ℚ) (payers : List SplitDetail) :
    List SplitDetail → DebtMatrix → Except Unit DebtMatrix
  | [], M => .ok M
  | splitter :: rest, M =>
    match processPayers rowKeys tp splitter payers M with
    | .ok M' => processSplitters rowKeys tp payers rest M'
    | .error e => .error e

/-- One expense (lines 91–114): `if (totalPaid === 0) return;` then the two
nested share loops. -/
def addExpenseDebts (rowKeys : List String) (M : DebtMatrix) (e : Expense) :
    Except Unit DebtMatrix :=
  if totalPaid e = 0 then .ok M
  else processSplitters rowKeys (totalPaid e) e.paidBy e.splitAmong M

/-- `expenses.forEach(exp => ...)`; an exception aborts the whole call. -/
def buildMatrixAux (rowKeys : List String) :
    List Expense → DebtMatrix → Except Unit DebtMatrix
  | [], M => .ok M
  | e :: rest, M =>
    match addExpenseDebts rowKeys M e with
    | .ok M' => buildMatrixAux rowKeys rest M'
    | .error er => .error er

/-- Lines 82–114: initialise the matrix (all member cells 0) and fold in the
expenses. -/
def buildMatrix (expenses : List Expense) (members : List Member) :
    Except Unit DebtMatrix :=
  buildMatrixAux (members.map Member.id) expenses (fun _ _ => 0)

/-- `[a.id, b.id].sort().join('-')` (line 123): the canonical key of an
unordered pair. -/
def sortKey (a b : String) : String :=
  if a ≤ b then a ++ "-" ++ b else b ++ "-" ++ a

/-- The consolidation double loop (lines 120–137).  The JS code pushes the
formatted string inside the loop; the model records the visited
`(debtor, creditor, positive net)` triple in the same order and formats with
`renderDebt` afterwards, which yields the same string list (in the
`net < -0.01` branch, `Math.abs(net) = -net`). -/
def consolidateAux (M : DebtMatrix) :
    List (Member × Member) → List String → List (Member × Member × ℚ)
  | [], _ => []
  | (a, b) :: rest, processed =>
    if a.id = b.id then consolidateAux M rest processed
    else if sortKey a.id b.id ∈ processed then consolidateAux M rest processed
    else
      (if 1/100 < M a.id b.id - M b.id a.id then [(a, b, M a.id b.id - M b.id a.id)]
       else if M a.id b.id - M b.id a.id < -(1/100) then
         [(b, a, -(M a.id b.id - M b.id a.id))]
       else []) ++ consolidateAux M rest (sortKey a.id b.id :: processed)

/-- The row-major pair order of the nested `members.forEach`. -/
def memberPairs (members : List Member) : List (Member × Member) :=
  members.flatMap (fun a => members.map (fun b => (a, b)))

def consolidate (M : DebtMatrix) (members : List Member) : List (Member × Member × ℚ) :=
  consolidateAux M (memberPairs members) []

/-- Format one consolidated debt: `${x.name} 欠 ${y.name} $${Math.round(net)}`. -/
def renderDebt (t : Member × Member × ℚ) : String :=
  t.1.name ++ " 欠 " ++ t.2.1.name ++ " $" ++ toString (jround t.2.2)

/-- `getDetailedRawDebts` from `algorithm.ts` lines 79–140, with a thrown
`TypeError` modelled as `Except.error ()`. -/
def getDetailedRawDebts (expenses : List Expense) (members : List Member) :
    Except Unit (List String) :=
  match buildMatrix expenses members with
  | .ok M => .ok ((consolidate M members).map renderDebt)
  | .error e => .error e

/-! ### C3: exactly when the builder crashes -/

theorem processPayers_error_iff (rowKeys : List String) (tp : ℚ) (s : SplitDetail) :
    ∀ (ps : List SplitDetail) (M : DebtMatrix),
      processPayers rowKeys tp s ps M = .error () ↔
        (s.memberId ∉ rowKeys ∧ ∃ p ∈ ps, p.memberId ≠ s.memberId) := by
  intro ps
  induction ps with
  | nil => intro M; simp [processPayers]
  | cons payer rest ih =>
    intro M
    by_cases hne : s.memberId ≠ payer.memberId
    · by_cases hrow : s.memberId ∈ rowKeys
      · rw [processPayers, if_pos hne, if_pos hrow, ih]
        constructor
        · rintro ⟨h1, _⟩; exact absurd hrow h1
        · rintro ⟨h1, _⟩; exact absurd hrow h1
      · rw [processPayers, if_pos hne, if_neg hrow]
        constructor
        · intro _
          exact ⟨hrow, payer, List.mem_cons_self _ _, fun he => hne he.symm⟩
        · intro _
          rfl
    · rw [processPayers, if_neg hne, ih]
      push_neg at hne
      constructor
      · rintro ⟨h1, p, hp, hpne⟩
        exact ⟨h1, p, List.mem_cons_of_mem _ hp, hpne⟩
      · rintro ⟨h1, p, hp, hpne⟩
        rcases List.mem_cons.mp hp with rfl | hp'
        · exact absurd hne.symm hpne
        · exact ⟨h1, p, hp', hpne⟩

theorem processSplitters_error_iff (rowKeys : List String) (tp : ℚ) (payers : List SplitDetail) :
    ∀ (splitters : List SplitDetail) (M : DebtMatrix),
      processSplitters rowKeys tp payers splitters M = .error () ↔
        ∃ s ∈ splitters, s.memberId ∉ rowKeys ∧ ∃ p ∈ payers, p.memberId ≠ s.memberId := by
  intro splitters
  induction splitters with
  | nil => intro M; simp [processSplitters]
  | cons s rest ih =>
    intro M
    rw [processSplitters]
    cases hp : processPayers rowKeys tp s payers M with
    | ok M' =>
      rw [ih]
      constructor
      · rintro ⟨s', hs', hcond⟩
        exact ⟨s', List.mem_cons_of_mem _ hs', hcond⟩
      · rintro ⟨s', hs', hcond⟩
        rcases List.mem_cons.mp hs' with rfl | hs''
        · have herr := (processPayers_error_iff rowKeys tp s' payers M).mpr hcond
          rw [herr] at hp
          simp at hp
        · exact ⟨s', hs'', hcond⟩
    | error e =>
      cases e
      constructor
      · intro _
        exact ⟨s, List.mem_cons_self _ _,
          (processPayers_error_iff rowKeys tp s payers M).mp hp⟩
      · intro _
        rfl

theorem addExpenseDebts_error_iff (rowKeys : List String) (M : DebtMatrix) (e : Expense) :
    addExpenseDebts rowKeys M e = .error () ↔
      (totalPaid e ≠ 0 ∧ ∃ s ∈ e.splitAmong, s.memberId ∉ rowKeys ∧
        ∃ p ∈ e.paidBy, p.memberId ≠ s.memberId) := by
  rw [addExpenseDebts]
  by_cases h : totalPaid e = 0
  · rw [if_pos h]
    simp [h]
  · rw [if_neg h, processSplitters_error_iff]
    simp [h]

theorem buildMatrixAux_error_iff (rowKeys : List String) :
    ∀ (expenses : List Expense) (M : DebtMatrix),
      buildMatrixAux rowKeys expenses M = .error () ↔
        ∃ e ∈ expenses, totalPaid e ≠ 0 ∧ ∃ s ∈ e.splitAmong, s.memberId ∉ rowKeys ∧
          ∃ p ∈ e.paidBy, p.memberId ≠ s.memberId := by
  intro expenses
  induction expenses with
  | nil => intro M; simp [buildMatrixAux]
  | cons e rest ih =>
    intro M
    rw [buildMatrixAux]
    cases ha : addExpenseDebts rowKeys M e with
    | ok M' =>
      rw [ih]
      constructor
      · rintro ⟨e', he', hcond⟩
        exact ⟨e', List.mem_cons_of_mem _ he', hcond⟩
      · rintro ⟨e', he', hcond⟩
        rcases List.mem_cons.mp he' with rfl | he''
        · have herr := (addExpenseDebts_error_iff rowKeys M e').mpr hcond
          rw [herr] at ha
          simp at ha
        · exact ⟨e', he'', hcond⟩
    | error er =>
      cases er
      constructor
      · intro _
        exact ⟨e, List.mem_cons_self _ _, (addExpenseDebts_error_iff rowKeys M e).mp ha⟩
      · intro _
        rfl

/-- **C3 (amended).** `calculateBalances` and `calculateMinimalTransactions`
are total on all inputs (they are plain functions of this model), but
`getDetailedRawDebts` is *not*: it throws a `TypeError` exactly when some
expense with nonzero payer total has a debtor share whose member id is
absent from the member list together with a payer share of a different id
(reading `debtMatrix[splitter.memberId]`, which is `undefined`, at line
110).  All other anomalies are absorbed. -/
theorem c3_error_iff (expenses : List Expense) (members : List Member) :
    getDetailedRawDebts expenses members = .error () ↔
      ∃ e ∈ expenses, totalPaid e ≠ 0 ∧ ∃ s ∈ e.splitAmong,
        s.memberId ∉ members.map Member.id ∧ ∃ p ∈ e.paidBy, p.memberId ≠ s.memberId := by
  rw [← buildMatrixAux_error_iff (members.map Member.id) expenses (fun _ _ => 0)]
  rw [getDetailedRawDebts, buildMatrix]
  cases h : buildMatrixAux (members.map Member.id) expenses (fun _ _ => 0) with
  | ok M => simp
  | error e => cases e; simp

/-- Witness for the amended C3: with no expenses the builder cannot throw. -/
theorem c3_witness : getDetailedRawDebts ([] : List Expense) ([] : List Member) ≠ .error () := by
  intro h
  rw [c3_error_iff] at h
  simp at h

/-- **C3 is false as stated**: one expense of 10 paid by the known member
`"a"` but split onto the unknown id `"b"` makes `getDetailedRawDebts`
throw. -/
theorem c3_counterexample :
    getDetailedRawDebts [⟨"e1", "t", "d", 10, [⟨"a", 10⟩], [⟨"b", 10⟩], 0⟩] [⟨"a", "A"⟩]
      = .error () := by
  rw [(c3_error_iff _ _)]
  refine ⟨_, List.mem_cons_self _ _, ?_, ⟨"b", 10⟩, List.mem_cons_self _ _, ?_,
    ⟨"a", 10⟩, List.mem_cons_self _ _, ?_⟩
  · norm_num [totalPaid]
  · simp
  · simp

/-! ### C8: exact cell values of the debt matrix -/

/-- The total contribution of one expense to cell `(x, y)` of the matrix. -/
def expContrib (e : Expense) (x y : String) : ℚ :=
  if totalPaid e = 0 then 0 else
    (e.splitAmong.map (fun s => if s.memberId = x then
      ((e.paidBy.filter (fun p =>
          decide (p.memberId = y) && decide (p.memberId ≠ s.memberId))).map
        (fun p => s.amount * (p.amount / totalPaid e))).sum else 0)).sum

theorem processPayers_ok_cell (rowKeys : List String) (tp : ℚ) (s : SplitDetail) :
    ∀ (ps : List SplitDetail) (M M' : DebtMatrix),
      processPayers rowKeys tp s ps M = .ok M' → ∀ x y,
        M' x y = M x y + (if s.memberId = x then
          ((ps.filter (fun p =>
              decide (p.memberId = y) && decide (p.memberId ≠ s.memberId))).map
            (fun p => s.amount * (p.amount / tp))).sum else 0) := by
  intro ps
  induction ps with
  | nil =>
    intro M M' h x y
    simp only [processPayers, Except.ok.injEq] at h
    subst h
    by_cases hx : s.memberId = x <;> simp [hx]
  | cons payer rest ih =>
    intro M M' h x y
    rw [processPayers] at h
    by_cases hne : s.memberId ≠ payer.memberId
    · rw [if_pos hne] at h
      by_cases hrow : s.memberId ∈ rowKeys
      · rw [if_pos hrow] at h
        have hcond : (decide (payer.memberId = y) && decide (payer.memberId ≠ s.memberId)) =
            decide (payer.memberId = y) := by
          have hps : payer.memberId ≠ s.memberId := fun he => hne he.symm
          simp [hps]
        have hrec := ih _ _ h x y
        rw [hrec, List.filter_cons, hcond]
        by_cases hx : s.memberId = x
        · simp only [if_pos hx]
          by_cases hy : payer.memberId = y
          · rw [if_pos (show decide (payer.memberId = y) = true by simp [hy])]
            simp only [List.map_cons, List.sum_cons, updateCell]
            rw [if_pos (show x = s.memberId ∧ y = payer.memberId from ⟨hx.symm, hy.symm⟩)]
            rw [hx, hy]
            ring
          · rw [if_neg (show ¬decide (payer.memberId = y) = true by simp [hy])]
            simp only [updateCell]
            rw [if_neg (show ¬(x = s.memberId ∧ y = payer.memberId) from
              fun hc => hy hc.2.symm)]
        · simp only [if_neg hx, updateCell]
          rw [if_neg (show ¬(x = s.memberId ∧ y = payer.memberId) from
            fun hc => hx hc.1.symm)]
      · rw [if_neg hrow] at h
        simp at h
    · rw [if_neg hne] at h
      push_neg at hne
      have hps : payer.memberId = s.memberId := hne.symm
      have hrec := ih _ _ h x y
      rw [hrec, List.filter_cons]
      rw [if_neg (show ¬(decide (payer.memberId = y) && decide (payer.memberId ≠ s.memberId))
          = true by simp [hps])]

theorem processSplitters_ok_cell (rowKeys : List String) (tp : ℚ) (payers : List SplitDetail) :
    ∀ (splitters : List SplitDetail) (M M' : DebtMatrix),
      processSplitters rowKeys tp payers splitters M = .ok M' → ∀ x y,
        M' x y = M x y + (splitters.map (fun s => if s.memberId = x then
          ((payers.filter (fun p =>
              decide (p.memberId = y) && decide (p.memberId ≠ s.memberId))).map
            (fun p => s.amount * (p.amount / tp))).sum else 0)).sum := by
  intro splitters
  induction splitters with
  | nil =>
    intro M M' h x y
    simp only [processSplitters, Except.ok.injEq] at h
    subst h
    simp
  | cons s rest ih =>
    intro M M' h x y
    rw [processSplitters] at h
    cases hp : processPayers rowKeys tp s payers M with
    | ok M1 =>
      rw [hp] at h
      have h1 := processPayers_ok_cell rowKeys tp s payers M M1 hp x y
      have h2 := ih M1 M' h x y
      rw [h2, h1, List.map_cons, List.sum_cons]
      ring
    | error e =>
      rw [hp] at h
      simp at h

theorem addExpenseDebts_ok_cell (rowKeys : List String) (M : DebtMatrix) (e : Expense)
    (M' : DebtMatrix) (h : addExpenseDebts rowKeys M e = .ok M') (x y : String) :
    M' x y = M x y + expContrib e x y := by
  rw [addExpenseDebts] at h
  rw [expContrib]
  by_cases h0 : totalPaid e = 0
  · rw [if_pos h0] at h
    rw [if_pos h0]
    simp only [Except.ok.injEq] at h
    subst h
    ring
  · rw [if_neg h0] at h
    rw [if_neg h0]
    exact processSplitters_ok_cell rowKeys (totalPaid e) e.paidBy e.splitAmong M M' h x y

theorem buildMatrixAux_ok_cell (rowKeys : List String) :
    ∀ (expenses : List Expense) (M M' : DebtMatrix),
      buildMatrixAux rowKeys expenses M = .ok M' → ∀ x y,
        M' x y = M x y + (expenses.map (fun e => expContrib e x y)).sum := by
  intro expenses
  induction expenses with
  | nil =>
    intro M M' h x y
    simp only [buildMatrixAux, Except.ok.injEq] at h
    subst h
    simp
  | cons e rest ih =>
    intro M M' h x y
    rw [buildMatrixAux] at h
    cases ha : addExpenseDebts rowKeys M e with
    | ok M1 =>
      rw [ha] at h
      have h1 := addExpenseDebts_ok_cell rowKeys M e M1 ha x y
      have h2 := ih M1 M' h x y
      rw [h2, h1, List.map_cons, List.sum_cons]
      ring
    | error er =>
      rw [ha] at h
      simp at h

/-- **C8.** When `getDetailedRawDebts`'s matrix build succeeds, the cell
`[x][y]` for distinct participant columns holds exactly the sum, over the
expenses with nonzero `totalPaid`, of
`debtorShare.amount * (payerShare.amount / totalPaid)` over the (debtor
share at `x`, payer share at `y`) pairs; expenses with `totalPaid = 0`
contribute nothing (the guard prevents any division by zero), and the
diagonal cell `[x][x]` is never touched. -/
theorem c8_matrix_contributions (expenses : List Expense) (members : List Member)
    (M : DebtMatrix) (hok : buildMatrix expenses members = .ok M) (x y : String)
    (_hx : x ∈ members.map Member.id) (_hy : y ∈ members.map Member.id) (hxy : x ≠ y) :
    M x y = (expenses.map (fun e => if totalPaid e = 0 then 0 else
      (e.splitAmong.map (fun s => if s.memberId = x then
        ((e.paidBy.filter (fun p => decide (p.memberId = y))).map
          (fun p => s.amount * (p.amount / totalPaid e))).sum else 0)).sum)).sum ∧
    M x x = 0 := by
  have hcell := buildMatrixAux_ok_cell (members.map Member.id) expenses (fun _ _ => 0) M hok
  constructor
  · rw [hcell x y]
    show 0 + _ = _
    rw [zero_add]
    refine congrArg List.sum (List.map_congr_left ?_)
    intro e _
    rw [expContrib]
    by_cases h0 : totalPaid e = 0
    · rw [if_pos h0, if_pos h0]
    · rw [if_neg h0, if_neg h0]
      refine congrArg List.sum (List.map_congr_left ?_)
      intro sh _
      by_cases hs : sh.memberId = x
      · rw [if_pos hs, if_pos hs]
        refine congrArg List.sum (congrArg (List.map _) (List.filter_congr ?_))
        intro p _
        by_cases hpy : p.memberId = y
        · have hne : ¬(y = sh.memberId) := by
            rw [hs]
            exact fun he => hxy he.symm
          simp [hpy, hne]
        · simp [hpy]
      · rw [if_neg hs, if_neg hs]
  · rw [hcell x x]
    show 0 + _ = 0
    rw [zero_add]
    refine List.sum_eq_zero ?_
    intro z hz
    obtain ⟨e, _, rfl⟩ := List.mem_map.mp hz
    rw [expContrib]
    by_cases h0 : totalPaid e = 0
    · rw [if_pos h0]
    · rw [if_neg h0]
      refine List.sum_eq_zero ?_
      intro w hw
      obtain ⟨sh, _, rfl⟩ := List.mem_map.mp hw
      by_cases hs : sh.memberId = x
      · rw [if_pos hs]
        have hfil : e.paidBy.filter (fun p =>
            decide (p.memberId = x) && decide (p.memberId ≠ sh.memberId)) = [] := by
          rw [List.filter_eq_nil_iff]
          intro p _
          by_cases hp : p.memberId = x <;> simp [hp, hs]
        rw [hfil]
        simp
      · rw [if_neg hs]

/-- Witness for C8 at the empty expense list over two members: the build
succeeds with the all-zero matrix and both conjuncts instantiate. -/
theorem c8_witness :
    ((fun _ _ => (0:ℚ)) "a" "b" =
      (([] : List Expense).map (fun e => if totalPaid e = 0 then 0 else
        (e.splitAmong.map (fun s => if s.memberId = "a" then
          ((e.paidBy.filter (fun p => decide (p.memberId = "b"))).map
            (fun p => s.amount * (p.amount / totalPaid e))).sum else 0)).sum)).sum) ∧
    (fun _ _ => (0:ℚ)) "a" "a" = 0 := by
  have h := c8_matrix_contributions [] [⟨"a", "A"⟩, ⟨"b", "B"⟩] (fun _ _ => 0) rfl "a" "b"
    (by simp) (by simp) (by simp)
  exact h

/-! ### C9: the consolidation pass -/

theorem sortKey_comm (a b : String) : sortKey a b = sortKey b a := by
  rw [sortKey, sortKey]
  by_cases h1 : a ≤ b
  · by_cases h2 : b ≤ a
    · have : a = b := le_antisymm h1 h2
      subst this
      rfl
    · rw [if_pos h1, if_neg h2]
  · by_cases h2 : b ≤ a
    · rw [if_neg h1, if_pos h2]
    · rcases le_total a b with h | h
      · exact absurd h h1
      · exact absurd h h2

theorem mem_memberPairs {members : List Member} {q : Member × Member} :
    q ∈ memberPairs members ↔ q.1 ∈ members ∧ q.2 ∈ members := by
  obtain ⟨qa, qb⟩ := q
  rw [memberPairs, List.mem_flatMap]
  constructor
  · rintro ⟨a, ha, hq⟩
    obtain ⟨b, hb, heq⟩ := List.mem_map.mp hq
    obtain ⟨rfl, rfl⟩ := Prod.mk.injEq .. ▸ heq
    exact ⟨ha, hb⟩
  · rintro ⟨ha, hb⟩
    exact ⟨qa, ha, List.mem_map.mpr ⟨qb, hb, rfl⟩⟩

/-- Every emitted triple records a strictly positive net (beyond tolerance)
equal to the absolute difference of the two raw directional debts of its
pair. -/
theorem consolidateAux_net (M : DebtMatrix) :
    ∀ (ps : List (Member × Member)) (processed : List String),
      ∀ t ∈ consolidateAux M ps processed,
        1/100 < t.2.2 ∧ t.2.2 = |M t.1.id t.2.1.id - M t.2.1.id t.1.id| := by
  intro ps
  induction ps with
  | nil => intro processed t ht; cases ht
  | cons hd rest ih =>
    obtain ⟨a, b⟩ := hd
    intro processed t ht
    rw [consolidateAux] at ht
    by_cases hab : a.id = b.id
    · rw [if_pos hab] at ht
      exact ih _ t ht
    · rw [if_neg hab] at ht
      by_cases hkey : sortKey a.id b.id ∈ processed
      · rw [if_pos hkey] at ht
        exact ih _ t ht
      · rw [if_neg hkey] at ht
        rcases List.mem_append.mp ht with h | h
        · by_cases h1 : 1/100 < M a.id b.id - M b.id a.id
          · rw [if_pos h1] at h
            rcases List.mem_singleton.mp h with rfl
            refine ⟨h1, ?_⟩
            show M a.id b.id - M b.id a.id = |M a.id b.id - M b.id a.id|
            rw [abs_of_pos (by linarith)]
          · rw [if_neg h1] at h
            by_cases h2 : M a.id b.id - M b.id a.id < -(1/100)
            · rw [if_pos h2] at h
              rcases List.mem_singleton.mp h with rfl
              refine ⟨by simpa using by linarith, ?_⟩
              show -(M a.id b.id - M b.id a.id) = |M b.id a.id - M a.id b.id|
              rw [abs_of_pos (by linarith)]
              ring
            · rw [if_neg h2] at h
              cases h
        · exact ih _ t h

/-- The emitted triples carry pairwise distinct canonical keys, none of them
already processed. -/
theorem consolidateAux_keys (M : DebtMatrix) :
    ∀ (ps : List (Member × Member)) (processed : List String),
      ((consolidateAux M ps processed).map (fun t => sortKey t.1.id t.2.1.id)).Nodup ∧
      ∀ k ∈ (consolidateAux M ps processed).map (fun t => sortKey t.1.id t.2.1.id),
        k ∉ processed := by
  intro ps
  induction ps with
  | nil => intro processed; constructor <;> simp [consolidateAux]
  | cons hd rest ih =>
    obtain ⟨a, b⟩ := hd
    intro processed
    rw [consolidateAux]
    by_cases hab : a.id = b.id
    · rw [if_pos hab]
      exact ih _
    · rw [if_neg hab]
      by_cases hkey : sortKey a.id b.id ∈ processed
      · rw [if_pos hkey]
        exact ih _
      · rw [if_neg hkey]
        obtain ⟨ihnd, ihmem⟩ := ih (sortKey a.id b.id :: processed)
        have hentry : ∀ t ∈ (if 1/100 < M a.id b.id - M b.id a.id then
              [(a, b, M a.id b.id - M b.id a.id)]
            else if M a.id b.id - M b.id a.id < -(1/100) then
              [(b, a, -(M a.id b.id - M b.id a.id))]
            else []), sortKey t.1.id t.2.1.id = sortKey a.id b.id := by
          intro t ht
          by_cases h1 : 1/100 < M a.id b.id - M b.id a.id
          · rw [if_pos h1] at ht
            rcases List.mem_singleton.mp ht with rfl
            rfl
          · rw [if_neg h1] at ht
            by_cases h2 : M a.id b.id - M b.id a.id < -(1/100)
            · rw [if_pos h2] at ht
              rcases List.mem_singleton.mp ht with rfl
              exact sortKey_comm _ _
            · rw [if_neg h2] at ht
              cases ht
        rw [List.map_append]
        constructor
        · rw [List.nodup_append]
          refine ⟨?_, ihnd, ?_⟩
          · by_cases h1 : 1/100 < M a.id b.id - M b.id a.id
            · rw [if_pos h1]; simp
            · rw [if_neg h1]
              by_cases h2 : M a.id b.id - M b.id a.id < -(1/100)
              · rw [if_pos h2]; simp
              · rw [if_neg h2]; simp
          · intro k hk hk2
            obtain ⟨t, ht, rfl⟩ := List.mem_map.mp hk
            rw [hentry t ht] at hk2
            exact (ihmem _ hk2) (List.mem_cons_self _ _)
        · intro k hk
          rcases List.mem_append.mp hk with h | h
          · obtain ⟨t, ht, rfl⟩ := List.mem_map.mp h
            rw [hentry t ht]
            exact hkey
          · exact fun hmem => (ihmem k h) (List.mem_cons_of_mem _ hmem)

/-- Each emitted triple consumes a fresh canonical key, so the output length
is bounded by the number of unprocessed keys of the non-diagonal pairs. -/
theorem consolidateAux_length (M : DebtMatrix) :
    ∀ (ps : List (Member × Member)) (processed : List String),
      (consolidateAux M ps processed).length ≤
        ((((ps.filter (fun q => decide (q.1.id ≠ q.2.id))).map
            (fun q => sortKey q.1.id q.2.id)).toFinset) \ processed.toFinset).card := by
  intro ps
  induction ps with
  | nil => intro processed; simp [consolidateAux]
  | cons hd rest ih =>
    obtain ⟨a, b⟩ := hd
    intro processed
    rw [consolidateAux, List.filter_cons]
    by_cases hab : a.id = b.id
    · rw [if_pos hab, if_neg (show ¬(decide (((a, b).1.id ≠ (a, b).2.id)) = true) by simp [hab])]
      exact ih _
    · rw [if_neg hab, if_pos (show decide (((a, b).1.id ≠ (a, b).2.id)) = true by simp [hab])]
      by_cases hkey : sortKey a.id b.id ∈ processed
      · rw [if_pos hkey]
        refine le_trans (ih _) (Finset.card_le_card (Finset.sdiff_subset_sdiff ?_ le_rfl))
        rw [List.map_cons, List.toFinset_cons]
        exact Finset.subset_insert _ _
      · rw [if_neg hkey]
        rw [List.length_append]
        have hrec := ih (sortKey a.id b.id :: processed)
        have hentrylen : (if 1/100 < M a.id b.id - M b.id a.id then
              [(a, b, M a.id b.id - M b.id a.id)]
            else if M a.id b.id - M b.id a.id < -(1/100) then
              [(b, a, -(M a.id b.id - M b.id a.id))]
            else []).length ≤ 1 := by
          by_cases h1 : 1/100 < M a.id b.id - M b.id a.id
          · rw [if_pos h1]; simp
          · rw [if_neg h1]
            by_cases h2 : M a.id b.id - M b.id a.id < -(1/100)
            · rw [if_pos h2]; simp
            · rw [if_neg h2]; simp
        set K := sortKey a.id b.id with hK
        set A := ((List.map (fun q : Member × Member => sortKey q.1.id q.2.id)
            (List.filter (fun q => decide (q.1.id ≠ q.2.id)) rest)).toFinset ∪ {K}) \
          processed.toFinset with hA
        have hgoalset : (List.map (fun q : Member × Member => sortKey q.1.id q.2.id)
            ((a, b) :: List.filter (fun q => decide (q.1.id ≠ q.2.id)) rest)).toFinset \
            processed.toFinset = A := by
          rw [hA, List.map_cons, List.toFinset_cons]
          congr 1
          rw [Finset.union_comm]
          rfl
        rw [hgoalset]
        have hKmem : K ∈ A := by
          rw [hA]
          refine Finset.mem_sdiff.mpr ⟨Finset.mem_union_right _ (Finset.mem_singleton_self _), ?_⟩
          simpa using hkey
        have hsub : (List.map (fun q : Member × Member => sortKey q.1.id q.2.id)
            (List.filter (fun q => decide (q.1.id ≠ q.2.id)) rest)).toFinset \
            (K :: processed).toFinset ⊆ A.erase K := by
          intro z hz
          obtain ⟨hz1, hz2⟩ := Finset.mem_sdiff.mp hz
          rw [List.toFinset_cons] at hz2
          refine Finset.mem_erase.mpr ⟨?_, ?_⟩
          · intro hzk
            exact hz2 (hzk ▸ Finset.mem_insert_self _ _)
          · rw [hA]
            refine Finset.mem_sdiff.mpr ⟨Finset.mem_union_left _ hz1, ?_⟩
            intro hzp
            exact hz2 (Finset.mem_insert_of_mem hzp)
        have hcard : ((List.map (fun q : Member × Member => sortKey q.1.id q.2.id)
            (List.filter (fun q => decide (q.1.id ≠ q.2.id)) rest)).toFinset \
            (K :: processed).toFinset).card ≤ A.card - 1 := by
          refine le_trans (Finset.card_le_card hsub) ?_
          rw [Finset.card_erase_of_mem hKmem]
        have hA1 : 1 ≤ A.card := Finset.card_pos.mpr ⟨K, hKmem⟩
        omega

/-- The distinct canonical keys of the non-diagonal member pairs number at
most `C(n, 2)`. -/
theorem keyset_card_le :
    ∀ members : List Member,
      2 * (((memberPairs members).filter (fun q => decide (q.1.id ≠ q.2.id))).map
          (fun q => sortKey q.1.id q.2.id)).toFinset.card ≤
        members.length * (members.length - 1) := by
  intro members
  induction members with
  | nil => simp [memberPairs]
  | cons m t ih =>
    have hsub : (((memberPairs (m :: t)).filter (fun q => decide (q.1.id ≠ q.2.id))).map
        (fun q => sortKey q.1.id q.2.id)).toFinset ⊆
        t.toFinset.image (fun x => sortKey m.id x.id) ∪
          (((memberPairs t).filter (fun q => decide (q.1.id ≠ q.2.id))).map
            (fun q => sortKey q.1.id q.2.id)).toFinset := by
      intro k hk
      rw [List.mem_toFinset] at hk
      obtain ⟨q, hq, rfl⟩ := List.mem_map.mp hk
      obtain ⟨hqmem, hqne⟩ := List.mem_filter.mp hq
      obtain ⟨ha, hb⟩ := mem_memberPairs.mp hqmem
      have hne : q.1.id ≠ q.2.id := by simpa using hqne
      rcases List.mem_cons.mp ha with rfl | hat
      · rcases List.mem_cons.mp hb with heq | hbt
        · exact absurd (heq ▸ rfl) hne
        · exact Finset.mem_union_left _
            (Finset.mem_image.mpr ⟨q.2, List.mem_toFinset.mpr hbt, rfl⟩)
      · rcases List.mem_cons.mp hb with heq | hbt
        · refine Finset.mem_union_left _ (Finset.mem_image.mpr
            ⟨q.1, List.mem_toFinset.mpr hat, ?_⟩)
          rw [← heq, sortKey_comm]
        · refine Finset.mem_union_right _ (List.mem_toFinset.mpr
            (List.mem_map.mpr ⟨q, ?_, rfl⟩))
          refine List.mem_filter.mpr ⟨mem_memberPairs.mpr ⟨hat, hbt⟩, hqne⟩
    have hcard := Finset.card_le_card hsub
    have hunion := Finset.card_union_le (t.toFinset.image (fun x => sortKey m.id x.id))
      (((memberPairs t).filter (fun q => decide (q.1.id ≠ q.2.id))).map
        (fun q => sortKey q.1.id q.2.id)).toFinset
    have himg : (t.toFinset.image (fun x => sortKey m.id x.id)).card ≤ t.length :=
      le_trans Finset.card_image_le (List.toFinset_card_le t)
    have harith : 2 * t.length + t.length * (t.length - 1) =
        (t.length + 1) * ((t.length + 1) - 1) := by
      cases t.length with
      | zero => rfl
      | succ n =>
        simp only [Nat.succ_sub_one]
        ring
    simp only [List.length_cons]
    have hstep : 2 * (((memberPairs (m :: t)).filter (fun q => decide (q.1.id ≠ q.2.id))).map
        (fun q => sortKey q.1.id q.2.id)).toFinset.card ≤
        2 * t.length + 2 * (((memberPairs t).filter (fun q => decide (q.1.id ≠ q.2.id))).map
          (fun q => sortKey q.1.id q.2.id)).toFinset.card := by
      omega
    have := le_trans hstep (by omega : 2 * t.length + 2 *
      (((memberPairs t).filter (fun q => decide (q.1.id ≠ q.2.id))).map
        (fun q => sortKey q.1.id q.2.id)).toFinset.card ≤
      2 * t.length + t.length * (t.length - 1))
    rw [harith] at this
    exact this

/-- **C9.** When `getDetailedRawDebts` succeeds, its list is the rendering of
the consolidated triples; there are at most `C(n,2)` lines; the triples
carry pairwise distinct canonical pair keys (at most one line per unordered
pair — canonical keys even identify colliding `'-'`-joined ids, which only
lowers the count); and a pair whose two raw directional debts differ by at
most `0.01` yields no line in either orientation. -/
theorem c9_consolidation (expenses : List Expense) (members : List Member)
    (M : DebtMatrix) (lines : List String)
    (hok : buildMatrix expenses members = .ok M)
    (hlines : getDetailedRawDebts expenses members = .ok lines) :
    lines = (consolidate M members).map renderDebt ∧
    lines.length ≤ members.length * (members.length - 1) / 2 ∧
    ((consolidate M members).map (fun t => sortKey t.1.id t.2.1.id)).Nodup ∧
    ∀ x y : String, |M x y - M y x| ≤ 1/100 →
      ∀ t ∈ consolidate M members,
        ¬((t.1.id = x ∧ t.2.1.id = y) ∨ (t.1.id = y ∧ t.2.1.id = x)) := by
  have hl : lines = (consolidate M members).map renderDebt := by
    rw [getDetailedRawDebts, hok] at hlines
    simpa using hlines.symm
  refine ⟨hl, ?_, ?_, ?_⟩
  · rw [hl, List.length_map, consolidate]
    have h1 := consolidateAux_length M (memberPairs members) []
    have h2 := keyset_card_le members
    simp only [List.toFinset_nil, Finset.sdiff_empty] at h1
    omega
  · rw [consolidate]
    exact (consolidateAux_keys M (memberPairs members) []).1
  · intro x y hxy t ht hor
    rw [consolidate] at ht
    obtain ⟨hgt, habs⟩ := consolidateAux_net M (memberPairs members) [] t ht
    rcases hor with ⟨h1, h2⟩ | ⟨h1, h2⟩
    · rw [h1, h2] at habs
      rw [habs] at hgt
      linarith
    · rw [h1, h2] at habs
      rw [abs_sub_comm] at habs
      rw [habs] at hgt
      linarith

/-- Witness for C9 at the empty expense list over two members. -/
theorem c9_witness :
    ((consolidate (fun _ _ => 0) [⟨"a", "A"⟩, ⟨"b", "B"⟩]).map renderDebt).length ≤
      2 * (2 - 1) / 2 := by
  have h := c9_consolidation [] [⟨"a", "A"⟩, ⟨"b", "B"⟩] (fun _ _ => 0)
    ((consolidate (fun _ _ => 0) [⟨"a", "A"⟩, ⟨"b", "B"⟩]).map renderDebt) rfl rfl
  simpa using h.2.1

end SmartSplit
